import Mathlib

/-!
Verification of the overlap-add STFT buffering engine from
DanielRudrich/OverlappingFFTProcessor.

The engine (`OverlappingFFTProcessor` in `Source/OverlappingFFTProcessor.h`)
is shallowly embedded: buffers become functions from channel and sample
index to a sample value in a commutative ring `α`, the `int` counters become
integers, and the per-block `process` member function becomes a state
transformer.  The window and the overridable frame transform are passed as
parameters; the default Hann window of `createWindow` is embedded over `ℝ`
separately.
-/

set_option maxHeartbeats 1000000

namespace OverlapFFT

/-- Constructor parameters of `OverlappingFFTProcessor`:
`fftSizeAsPowerOf2` and `hopSizeDividerAsPowerOf2`, together with the two
`jassert` preconditions of the constructor (at least 50% overlap, hop of at
least one sample). -/
structure Cfg where
  fftSizeAsPowerOf2 : ℕ
  hopSizeDividerAsPowerOf2 : ℕ
  hop_pos : 1 ≤ hopSizeDividerAsPowerOf2
  hop_le : hopSizeDividerAsPowerOf2 ≤ fftSizeAsPowerOf2

/-- `fftSize = 1 << fftSizeAsPowerOf2`. -/
def Cfg.fftSize (c : Cfg) : ℕ := 2 ^ c.fftSizeAsPowerOf2

/-- `hopSize = fftSize >> hopSizeDividerAsPowerOf2`. -/
def Cfg.hopSize (c : Cfg) : ℕ :=
  2 ^ (c.fftSizeAsPowerOf2 - c.hopSizeDividerAsPowerOf2)

theorem Cfg.hopSize_pos (c : Cfg) : 0 < c.hopSize :=
  Nat.pos_pow_of_pos _ (by norm_num)

theorem Cfg.hopSize_le_fftSize (c : Cfg) : c.hopSize ≤ c.fftSize :=
  Nat.pow_le_pow_right (by norm_num) (Nat.sub_le _ _)

theorem Cfg.hopSize_lt_fftSize (c : Cfg) : c.hopSize < c.fftSize := by
  have h := c.hop_pos
  have h2 := c.hop_le
  exact Nat.pow_lt_pow_right (by norm_num) (by omega)

theorem Cfg.fftSize_pos (c : Cfg) : 0 < c.fftSize :=
  Nat.pos_pow_of_pos _ (by norm_num)

/-- The hop divides the frame: `fftSize = hopSize * 2 ^ hopSizeDivider`. -/
theorem Cfg.fftSize_eq (c : Cfg) :
    c.fftSize = c.hopSize * 2 ^ c.hopSizeDividerAsPowerOf2 := by
  have h := c.hop_le
  rw [Cfg.fftSize, Cfg.hopSize, ← pow_add]
  congr 1
  omega

variable {α : Type} [CommRing α]

/-- Mutable state of `OverlappingFFTProcessor`.  Sample buffers are embedded
as total functions: first argument the channel, second the sample index.
The `int` members `outputOffset` and `notYetUsedAudioDataCount` are embedded
as `ℤ` because both transiently leave `ℕ` in the C++ (the count goes
negative inside `process`).  `outputBufferLen` records the sample capacity
allocated by `outputBuffer.setSize`. -/
structure EngineState (α : Type) where
  nChIn : ℕ
  nChOut : ℕ
  maxBlockSize : ℕ
  fftInOutBuffer : ℕ → ℕ → α
  notYetUsedAudioData : ℕ → ℕ → α
  outputBuffer : ℕ → ℕ → α
  outputBufferLen : ℕ
  outputOffset : ℤ
  notYetUsedAudioDataCount : ℤ

/-- Helper: update the rows of a channel-indexed buffer below channel `n`,
mirroring the `for (ch = 0; ch < n; ++ch)` loops of the source. -/
def updBelow (n : ℕ) (old new : ℕ → ℕ → α) : ℕ → ℕ → α :=
  fun ch => if ch < n then new ch else old ch

/-- One row of the frame fill used in both gather loops of `process`:
`FloatVectorOperations::multiply` writes `src1[i] * window[i]` into the
first `fftSize` samples of `fftInOutBuffer`, taking the first `cnt`
samples from the carry-over row (starting at `nyOff`) and the remaining
`fftSize - cnt` samples from the input row.  Samples at or beyond
`fftSize` keep the old buffer content. -/
def fillFrameRow (N : ℕ) (w : ℕ → α) (carryRow inputRow oldRow : ℕ → α)
    (nyOff cnt : ℕ) : ℕ → α :=
  fun i =>
    if i < cnt then carryRow (nyOff + i) * w i
    else if i < N then inputRow (i - cnt) * w i
    else oldRow i

/-- Member function `writeBackFrame`: for each output channel, overlap-add
the first `fftSize - hopSize` samples of the transformed frame into the
output buffer at `outputOffset` (`addFrom`), overwrite the following
`hopSize` samples (`copyFrom`), then advance `outputOffset` by `hopSize`. -/
def writeBackFrame (c : Cfg) (s : EngineState α) : EngineState α :=
  { s with
    outputBuffer := fun ch =>
      if ch < s.nChOut then fun i =>
        if s.outputOffset ≤ (i : ℤ) ∧
            (i : ℤ) < s.outputOffset + ((c.fftSize - c.hopSize : ℕ) : ℤ) then
          s.outputBuffer ch i + s.fftInOutBuffer ch (i - s.outputOffset.toNat)
        else if s.outputOffset + ((c.fftSize - c.hopSize : ℕ) : ℤ) ≤ (i : ℤ) ∧
            (i : ℤ) < s.outputOffset + (c.fftSize : ℤ) then
          s.fftInOutBuffer ch (i - s.outputOffset.toNat)
        else s.outputBuffer ch i
      else s.outputBuffer ch,
    outputOffset := s.outputOffset + (c.hopSize : ℤ) }

/-- Shared shape of the virtual frame transform `processFrameInBuffer`:
it receives the channel bound `maxNumChannels` and rewrites the
`fftInOutBuffer` in place.  The default implementation is the identity. -/
def FrameTransform (α : Type) : Type := ℕ → (ℕ → ℕ → α) → (ℕ → ℕ → α)

/-- Frame completion: fill the windowed frame, run the virtual transform
on `fftInOutBuffer`, then fold the result into the output buffer.  The
fill writes channels below `numChIn`; `row ch` gives the windowed row. -/
def doFrame (c : Cfg) (tf : FrameTransform α) (numChIn maxCh : ℕ)
    (row : ℕ → ℕ → α) (s : EngineState α) : EngineState α :=
  writeBackFrame c
    { s with fftInOutBuffer := tf maxCh (updBelow numChIn s.fftInOutBuffer row) }

/-- First gather loop of `process`: while left-over samples exist and
together with the new block complete a frame, window the carry-over tail
plus the head of the new input, transform, write back, then advance
`notYetUsedAudioDataOffset` by `hopSize` and drop `hopSize` from the
count. -/
def loopA (c : Cfg) (w : ℕ → α) (tf : FrameTransform α)
    (numChIn maxCh : ℕ) (input : ℕ → ℕ → α) (L : ℕ)
    (s : EngineState α) (nyOff : ℕ) : EngineState α :=
  if h : 0 < s.notYetUsedAudioDataCount ∧
      (c.fftSize : ℤ) ≤ s.notYetUsedAudioDataCount + (L : ℤ) then
    let cnt := s.notYetUsedAudioDataCount.toNat
    let s2 := doFrame c tf numChIn maxCh
      (fun ch => fillFrameRow c.fftSize w (s.notYetUsedAudioData ch)
        (input ch) (s.fftInOutBuffer ch) nyOff cnt) s
    loopA c w tf numChIn maxCh input L
      { s2 with notYetUsedAudioDataCount :=
          s2.notYetUsedAudioDataCount - (c.hopSize : ℤ) }
      (nyOff + c.hopSize)
  else s
termination_by s.notYetUsedAudioDataCount.toNat
decreasing_by
  simp only [doFrame, writeBackFrame]
  have := c.hopSize_pos
  omega

/-- Second gather loop of `process`: once all carry-over is consumed,
take `hopSize`-spaced frames directly from the input block while at least
`fftSize` samples remain from `dataOffset`.  Returns the state and the
final `dataOffset`. -/
def loopB (c : Cfg) (w : ℕ → α) (tf : FrameTransform α)
    (numChIn maxCh : ℕ) (input : ℕ → ℕ → α) (L : ℕ)
    (s : EngineState α) (dataOffset : ℤ) : EngineState α × ℤ :=
  if h : (c.fftSize : ℤ) ≤ (L : ℤ) - dataOffset then
    let s2 := doFrame c tf numChIn maxCh
      (fun ch => fillFrameRow c.fftSize w (fun _ => 0)
        (fun i => input ch (dataOffset.toNat + i)) (s.fftInOutBuffer ch) 0 0) s
    loopB c w tf numChIn maxCh input L s2 (dataOffset + (c.hopSize : ℤ))
  else (s, dataOffset)
termination_by ((L : ℤ) - dataOffset).toNat
decreasing_by
  have := c.hopSize_pos
  have := c.hopSize_le_fftSize
  omega

/-- Carry phase of `process`: the two gather loops followed by the update
of `notYetUsedAudioData`.  Mirrors `process` up to (but excluding) the
output-returning section of the source. -/
def carryPhase (c : Cfg) (w : ℕ → α) (tf : FrameTransform α)
    (numChIn maxCh : ℕ) (input : ℕ → ℕ → α) (L : ℕ)
    (s : EngineState α) : EngineState α :=
  let initialCount := s.notYetUsedAudioDataCount
  let sA := loopA c w tf numChIn maxCh input L s 0
  if 0 < sA.notYetUsedAudioDataCount then
    -- not enough new input samples to use all of the previous data:
    -- compact the unused carry tail to the front, append the whole block
    let cnt := sA.notYetUsedAudioDataCount.toNat
    { sA with
      notYetUsedAudioData := updBelow numChIn sA.notYetUsedAudioData
        (fun ch i =>
          if i < cnt then
            sA.notYetUsedAudioData ch ((initialCount - (cnt : ℤ)).toNat + i)
          else if i < cnt + L then input ch (i - cnt)
          else sA.notYetUsedAudioData ch i),
      notYetUsedAudioDataCount := sA.notYetUsedAudioDataCount + (L : ℤ) }
  else
    let p := loopB c w tf numChIn maxCh input L sA (- sA.notYetUsedAudioDataCount)
    let sB := p.1
    let dataOffset := p.2
    let remainingSamples : ℤ := (L : ℤ) - dataOffset
    { sB with
      notYetUsedAudioData :=
        if 0 < remainingSamples then
          updBelow numChIn sB.notYetUsedAudioData
            (fun ch i =>
              if i < remainingSamples.toNat then input ch (dataOffset.toNat + i)
              else sB.notYetUsedAudioData ch i)
        else sB.notYetUsedAudioData,
      notYetUsedAudioDataCount := remainingSamples }

/-- Requested left-shift length of the output buffer before clamping:
`shiftL = outputOffset + fftSize - hopSize - L`. -/
def shiftLReq (c : Cfg) (s : EngineState α) (L : ℕ) : ℤ :=
  s.outputOffset + ((c.fftSize - c.hopSize : ℕ) : ℤ) - (L : ℤ)

/-- Amount by which the requested shift would overrun the allocated output
buffer: `tooMuch = shiftStart + shiftL - outputBuffer.getNumSamples()`. -/
def tooMuchOf (c : Cfg) (s : EngineState α) (L : ℕ) : ℤ :=
  (L : ℤ) + shiftLReq c s L - (s.outputBufferLen : ℤ)

/-- Clamped shift length actually used by the emission phase. -/
def shiftLClamped (c : Cfg) (s : EngineState α) (L : ℕ) : ℤ :=
  if 0 < tooMuchOf c s L then shiftLReq c s L - tooMuchOf c s L
  else shiftLReq c s L

/-- Emission phase of `process`: copy the first `L` output-buffer samples
to the caller block for channels below `numChOut`, clear the caller
channels from `numChOut` up, left-shift the remaining buffer content by
`L` samples (clamped to the allocation) and decrement `outputOffset` by
`L`.  The returned function is the caller's output block. -/
def emitPhase (c : Cfg) (numChOut : ℕ) (L : ℕ) (s : EngineState α) :
    EngineState α × (ℕ → ℕ → α) :=
  let shiftL := shiftLClamped c s L
  let out : ℕ → ℕ → α := fun ch i =>
    if ch < numChOut ∧ i < L then s.outputBuffer ch i else 0
  ({ s with
      outputBuffer := updBelow numChOut s.outputBuffer
        (fun ch i =>
          if (i : ℤ) < shiftL then s.outputBuffer ch (L + i)
          else s.outputBuffer ch i),
      outputOffset := s.outputOffset - (L : ℤ) },
    out)

/-- Member function `process (inputBlock, outputBlock)`.  `inBlkCh` and
`outBlkCh` are the channel counts of the caller's blocks and `L` the
sample count of both; the result is the updated state together with the
output block contents (channels at or beyond `outBlkCh` are read as 0). -/
def process (c : Cfg) (w : ℕ → α) (tf : FrameTransform α)
    (s : EngineState α) (input : ℕ → ℕ → α) (L : ℕ)
    (inBlkCh outBlkCh : ℕ) : EngineState α × (ℕ → ℕ → α) :=
  let numChIn := min inBlkCh s.nChIn
  let numChOut := min outBlkCh s.nChOut
  let maxCh := max numChIn numChOut
  emitPhase c numChOut L (carryPhase c w tf numChIn maxCh input L s)

/-- Member function `prepare`: allocate the carry-over buffer
(`fftSize - 1` samples), the frame buffer, and the output buffer
(capacity `M + bufferSize - 1` with `M = k * hopSize + (fftSize - hopSize)`
and `k = floor(1 + (bufferSize - 1) / hopSize)`), clear the output buffer,
set `outputOffset = fftSize - 1` and zero the carry-over count.  Fresh
allocations are modelled as zero-filled. -/
def prepare (c : Cfg) (maximumBlockSize nChIn nChOut : ℕ) : EngineState α :=
  let k : ℕ := 1 + (maximumBlockSize - 1) / c.hopSize
  let M : ℕ := k * c.hopSize + (c.fftSize - c.hopSize)
  { nChIn := nChIn
    nChOut := nChOut
    maxBlockSize := maximumBlockSize
    fftInOutBuffer := fun _ _ => 0
    notYetUsedAudioData := fun _ _ => 0
    outputBuffer := fun _ _ => 0
    outputBufferLen := M + maximumBlockSize - 1
    outputOffset := (c.fftSize : ℤ) - 1
    notYetUsedAudioDataCount := 0 }

/-- Member function `reset` of `OverlappingFFTProcessor`: its body is
empty, so the state is returned unchanged. -/
def reset (s : EngineState α) : EngineState α := s

/-- Run a sequence of `process` calls.  Each element of `calls` is the
sample count of a block paired with its contents; the result pairs the
final state with the list of emitted output blocks. -/
def runCalls (c : Cfg) (w : ℕ → α) (tf : FrameTransform α)
    (inBlkCh outBlkCh : ℕ) (s : EngineState α) :
    List (ℕ × (ℕ → ℕ → α)) → EngineState α × List (ℕ × (ℕ → ℕ → α))
  | [] => (s, [])
  | (L, blk) :: rest =>
    let p := process c w tf s blk L inBlkCh outBlkCh
    let q := runCalls c w tf inBlkCh outBlkCh p.1 rest
    (q.1, (L, p.2) :: q.2)

/-- Concatenation of a list of sized blocks into a single stream,
indexed by channel and global sample position (0 beyond the end). -/
def chunksStream : List (ℕ × (ℕ → ℕ → α)) → ℕ → ℕ → α
  | [], _, _ => 0
  | (L, blk) :: rest, ch, p => if p < L then blk ch p else chunksStream rest ch (p - L)

/-- Total sample count of a list of sized blocks. -/
def chunksLen (calls : List (ℕ × (ℕ → ℕ → α))) : ℕ :=
  (calls.map Prod.fst).sum

/-!  Stream-level specification.  Frame `k` of the input stream covers
stream positions `[k*R, k*R + N)`; it is completed once `k*R + N` samples
have been consumed and its transformed samples land at output stream
positions `[N - 1 + k*R, N - 1 + k*R + N)`. -/

/-- Number of frames completed after consuming `T` input samples. -/
def framesTotal (N R T : ℕ) : ℕ := if N ≤ T then (T - N) / R + 1 else 0

/-- Number of input samples held in the carry-over buffer after consuming
`T` input samples. -/
def carryCount (N R T : ℕ) : ℕ := T - R * framesTotal N R T

theorem framesTotal_of_ge (N R T : ℕ) (h : N ≤ T) :
    framesTotal N R T = (T - N) / R + 1 := by
  unfold framesTotal
  rw [if_pos h]

theorem framesTotal_zero_iff (N R T : ℕ) (hN : 0 < N) :
    framesTotal N R T = 0 ↔ T < N := by
  rcases Nat.lt_or_ge T N with h | h
  · simp [framesTotal, h, Nat.not_le.2 h]
  · simp [framesTotal, Nat.not_lt.2 h, h]

theorem carryCount_of_lt (N R T : ℕ) (h : T < N) : carryCount N R T = T := by
  unfold carryCount framesTotal
  rw [if_neg (by omega)]
  omega

theorem framesTotal_mul_expand (N R T : ℕ) (h : N ≤ T) :
    R * framesTotal N R T = R * ((T - N) / R) + R := by
  unfold framesTotal
  rw [if_pos h]
  ring

theorem carryCount_add_mul (N R T : ℕ) (hR : 0 < R) (hRN : R ≤ N) :
    carryCount N R T + R * framesTotal N R T = T := by
  rcases Nat.lt_or_ge T N with h | h
  · rw [carryCount_of_lt N R T h, (framesTotal_zero_iff N R T (by omega)).2 h]
    ring
  · have h1 : R * ((T - N) / R) ≤ T - N := Nat.mul_div_le _ _
    have h2 := framesTotal_mul_expand N R T h
    unfold carryCount
    omega

theorem carryCount_of_ge (N R T : ℕ) (hR : 0 < R) (hRN : R ≤ N) (h : N ≤ T) :
    carryCount N R T = (T - N) % R + (N - R) := by
  have h1 := Nat.div_add_mod (T - N) R
  have h2 : R * ((T - N) / R) ≤ T - N := Nat.mul_div_le _ _
  have h3 := framesTotal_mul_expand N R T h
  unfold carryCount
  omega

theorem carryCount_le (N R T : ℕ) (hR : 0 < R) (hRN : R ≤ N) (hN : 0 < N) :
    carryCount N R T ≤ N - 1 := by
  rcases Nat.lt_or_ge T N with h | h
  · rw [carryCount_of_lt N R T h]; omega
  · rw [carryCount_of_ge N R T hR hRN h]
    have := Nat.mod_lt (T - N) hR
    omega

theorem carryCount_ge (N R T : ℕ) (hR : 0 < R) (hRN : R ≤ N) (h : N ≤ T) :
    N - R ≤ carryCount N R T := by
  rw [carryCount_of_ge N R T hR hRN h]; omega

/-- Uniqueness of the per-call frame schedule: if a call consumed `a`
frames, left a carry of `cnt` with `cnt < N`, and either no frame was
taken or the last frame was full (`N ≤ cnt + R`), then `cnt` and the new
frame total are the closed forms at `T + L`. -/
theorem carry_step (N R T L a cnt : ℕ) (hR : 0 < R) (hRN : R ≤ N)
    (hbal : carryCount N R T + L = cnt + a * R)
    (hlt : cnt < N)
    (hpin : a = 0 ∨ N ≤ cnt + R) :
    cnt = carryCount N R (T + L) ∧
      framesTotal N R T + a = framesTotal N R (T + L) := by
  have hTident := carryCount_add_mul N R T hR hRN
  rcases Nat.eq_zero_or_pos a with ha0 | hapos
  · subst ha0
    rcases Nat.lt_or_ge (T + L) N with h | h
    · have hT : T < N := by omega
      rw [carryCount_of_lt N R T hT] at hbal hTident
      rw [carryCount_of_lt N R (T + L) h]
      have : framesTotal N R T = 0 := (framesTotal_zero_iff N R T (by omega)).2 hT
      rw [(framesTotal_zero_iff N R (T + L) (by omega)).2 h]
      omega
    · -- no frame this call although `N ≤ T + L`: frames already existed
      have hT : N ≤ T := by
        by_contra hc
        push_neg at hc
        rw [carryCount_of_lt N R T hc] at hbal
        omega
      have hcarry := carryCount_of_ge N R T hR hRN hT
      have hmod := Nat.mod_lt (T - N) hR
      -- T + L - N = ((T - N) % R + L) + R * ((T - N) / R), remainder < R
      have hrem : (T - N) % R + L < R := by
        rw [hcarry] at hbal; omega
      have hdecomp : T + L - N = ((T - N) % R + L) + R * ((T - N) / R) := by
        have := Nat.div_add_mod (T - N) R
        omega
      constructor
      · rw [carryCount_of_ge N R (T + L) hR hRN h, hdecomp,
          Nat.add_mul_mod_self_left, Nat.mod_eq_of_lt hrem]
        rw [hcarry] at hbal
        omega
      · rw [framesTotal_of_ge N R T hT, framesTotal_of_ge N R (T + L) h,
          hdecomp, Nat.add_mul_div_left _ _ hR, Nat.div_eq_of_lt hrem]
        omega
  · -- at least one frame was taken, so `N - R ≤ cnt < N`
    have hfull : N ≤ cnt + R := by
      rcases hpin with h | h
      · omega
      · exact h
    have haR : R ≤ a * R := Nat.le_mul_of_pos_left R hapos
    have h : N ≤ T + L := by omega
    have hsplit : a * R = (a - 1) * R + R := by
      have h1 : a = (a - 1) + 1 := by omega
      calc a * R = ((a - 1) + 1) * R := by rw [← h1]
        _ = (a - 1) * R + R := by ring
    have hexp : R * ((a - 1) + framesTotal N R T) =
        (a - 1) * R + R * framesTotal N R T := by ring
    have hdecomp : T + L - N =
        (cnt + R - N) + R * ((a - 1) + framesTotal N R T) := by omega
    have hrem : cnt + R - N < R := by omega
    constructor
    · rw [carryCount_of_ge N R (T + L) hR hRN h, hdecomp,
        Nat.add_mul_mod_self_left, Nat.mod_eq_of_lt hrem]
      omega
    · rw [framesTotal_of_ge N R (T + L) h, hdecomp,
        Nat.add_mul_div_left _ _ hR, Nat.div_eq_of_lt hrem]
      omega

theorem framesTotal_mono (N R : ℕ) {T U : ℕ} (h : T ≤ U) :
    framesTotal N R T ≤ framesTotal N R U := by
  rcases Nat.lt_or_ge T N with hT | hT
  · rcases Nat.lt_or_ge U N with hU | hU
    · unfold framesTotal
      rw [if_neg (by omega), if_neg (by omega)]
    · unfold framesTotal
      rw [if_neg (by omega), if_pos hU]
      exact Nat.zero_le _
  · have hU : N ≤ U := le_trans hT h
    rw [framesTotal_of_ge N R T hT, framesTotal_of_ge N R U hU]
    exact Nat.add_le_add_right (Nat.div_le_div_right (by omega)) 1

section Spec

variable (w : ℕ → α) (tf : FrameTransform α) (str : ℕ → ℕ → α)
variable (numChIn maxCh N R : ℕ)

/-- Specified content of `fftInOutBuffer` after `k` completed frames of the
input stream `str`: frame `k - 1` was filled with the windowed stream
samples `str (ch, (k-1)*R + i) * w i` on its first `N` positions for
channels below `numChIn` (everything else keeps the previous content) and
then the virtual transform ran on the whole buffer. -/
def specFft : ℕ → ℕ → ℕ → α
  | 0 => fun _ _ => 0
  | k + 1 => tf maxCh (updBelow numChIn (specFft k)
      (fun ch i => if i < N then str ch (k * R + i) * w i
        else specFft k ch i))

/-- Contribution of completed frame `k` to output stream position `p`:
frame `k` covers output positions `[N - 1 + k*R, N - 1 + k*R + N)`. -/
def specContrib (k ch p : ℕ) : α :=
  if N - 1 + k * R ≤ p ∧ p < N - 1 + k * R + N then
    specFft w tf str numChIn maxCh N R (k + 1) ch (p - (N - 1 + k * R))
  else 0

/-- Specified value at output stream position `p` once the first `F`
frames have been folded in. -/
def specOut (F ch p : ℕ) : α :=
  ∑ k ∈ Finset.range F, specContrib w tf str numChIn maxCh N R k ch p

/-- Specified value at output stream position `p` of the complete run:
all frames that can ever contribute to `p` are included. -/
def specOutFinal (ch p : ℕ) : α :=
  specOut w tf str numChIn maxCh N R (framesTotal N R (p + 1)) ch p

theorem specOut_succ (F ch p : ℕ) :
    specOut w tf str numChIn maxCh N R (F + 1) ch p =
      specOut w tf str numChIn maxCh N R F ch p +
        specContrib w tf str numChIn maxCh N R F ch p :=
  Finset.sum_range_succ _ _

theorem specContrib_zero_low (k ch p : ℕ) (h : p < N - 1 + k * R) :
    specContrib w tf str numChIn maxCh N R k ch p = 0 := by
  unfold specContrib
  rw [if_neg (by omega)]

theorem specContrib_zero_high (k ch p : ℕ) (h : N - 1 + k * R + N ≤ p) :
    specContrib w tf str numChIn maxCh N R k ch p = 0 := by
  unfold specContrib
  rw [if_neg (by omega)]

theorem specOut_zero_high (F ch p : ℕ) (h : ∀ k < F, N - 1 + k * R + N ≤ p) :
    specOut w tf str numChIn maxCh N R F ch p = 0 := by
  unfold specOut
  refine Finset.sum_eq_zero ?_
  intro k hk
  exact specContrib_zero_high w tf str numChIn maxCh N R k ch p
    (h k (Finset.mem_range.1 hk))

/-- Frames at index at least `F` do not touch positions below
`N - 1 + F * R`, so the truncated sum is stable there. -/
theorem specOut_stable (F G ch p : ℕ) (hFG : F ≤ G)
    (h : p < N - 1 + F * R) :
    specOut w tf str numChIn maxCh N R G ch p =
      specOut w tf str numChIn maxCh N R F ch p := by
  unfold specOut
  rw [← Finset.sum_range_add_sum_Ico _ hFG]
  have hz : ∑ k ∈ Finset.Ico F G,
      specContrib w tf str numChIn maxCh N R k ch p = 0 := by
    refine Finset.sum_eq_zero ?_
    intro k hk
    have hkF : F ≤ k := (Finset.mem_Ico.1 hk).1
    refine specContrib_zero_low w tf str numChIn maxCh N R k ch p ?_
    have : F * R ≤ k * R := Nat.mul_le_mul_right R hkF
    omega
  rw [hz, add_zero]

end Spec

theorem doFrame_count (c : Cfg) (tf : FrameTransform α) (n m : ℕ)
    (row : ℕ → ℕ → α) (s : EngineState α) :
    (doFrame c tf n m row s).notYetUsedAudioDataCount =
      s.notYetUsedAudioDataCount := rfl

theorem doFrame_offset (c : Cfg) (tf : FrameTransform α) (n m : ℕ)
    (row : ℕ → ℕ → α) (s : EngineState α) :
    (doFrame c tf n m row s).outputOffset =
      s.outputOffset + (c.hopSize : ℤ) := rfl

theorem doFrame_outputBuffer (c : Cfg) (tf : FrameTransform α) (n m : ℕ)
    (row : ℕ → ℕ → α) (s : EngineState α) (ch i : ℕ)
    (hch : ch < s.nChOut) :
    (doFrame c tf n m row s).outputBuffer ch i =
      if s.outputOffset ≤ (i : ℤ) ∧
          (i : ℤ) < s.outputOffset + ((c.fftSize - c.hopSize : ℕ) : ℤ) then
        s.outputBuffer ch i +
          tf m (updBelow n s.fftInOutBuffer row) ch (i - s.outputOffset.toNat)
      else if s.outputOffset + ((c.fftSize - c.hopSize : ℕ) : ℤ) ≤ (i : ℤ) ∧
          (i : ℤ) < s.outputOffset + (c.fftSize : ℤ) then
        tf m (updBelow n s.fftInOutBuffer row) ch (i - s.outputOffset.toNat)
      else s.outputBuffer ch i := by
  simp only [doFrame, writeBackFrame]
  rw [if_pos hch]

theorem updBelow_app (n : ℕ) (old new : ℕ → ℕ → α) (ch i : ℕ) :
    updBelow n old new ch i = if ch < n then new ch i else old ch i := by
  unfold updBelow
  split <;> rfl

theorem writeBackFrame_outputBuffer (c : Cfg) (s : EngineState α)
    (ch i : ℕ) (hch : ch < s.nChOut) :
    (writeBackFrame c s).outputBuffer ch i =
      if s.outputOffset ≤ (i : ℤ) ∧
          (i : ℤ) < s.outputOffset + ((c.fftSize - c.hopSize : ℕ) : ℤ) then
        s.outputBuffer ch i + s.fftInOutBuffer ch (i - s.outputOffset.toNat)
      else if s.outputOffset + ((c.fftSize - c.hopSize : ℕ) : ℤ) ≤ (i : ℤ) ∧
          (i : ℤ) < s.outputOffset + (c.fftSize : ℤ) then
        s.fftInOutBuffer ch (i - s.outputOffset.toNat)
      else s.outputBuffer ch i := by
  simp only [writeBackFrame]
  rw [if_pos hch]

section MidCall

variable (c : Cfg) (w : ℕ → α) (tf : FrameTransform α) (str : ℕ → ℕ → α)
variable (nChIn nChOut maxCh B T cnt0 F0 : ℕ)

/-- State description holding while the gather loops of one `process` call
run.  `T` input samples were consumed by the previous calls, leaving
`cnt0 = carryCount T` carry-over samples and `F0 = framesTotal T` completed
frames, and `j` further frames have completed during the current call.
The carry-over rows still hold the tail of the previously consumed input
(they are rewritten only after the loops), `outputOffset` has advanced by
`j` hops, and the output buffer agrees with the specified overlap-add sum
on the valid region. -/
structure Mid (j : ℕ) (s : EngineState α) : Prop where
  hnIn : s.nChIn = nChIn
  hnOut : s.nChOut = nChOut
  hB : s.maxBlockSize = B
  hLen : s.outputBufferLen =
    (1 + (B - 1) / c.hopSize) * c.hopSize + (c.fftSize - c.hopSize) + B - 1
  hCarry : ∀ ch < nChIn, ∀ i < cnt0,
    s.notYetUsedAudioData ch i = str ch (T - cnt0 + i)
  hOff : s.outputOffset =
    (c.fftSize : ℤ) - 1 - (cnt0 : ℤ) + (j : ℤ) * (c.hopSize : ℤ)
  hFft : s.fftInOutBuffer =
    specFft w tf str nChIn maxCh c.fftSize c.hopSize (F0 + j)
  hOut : ∀ ch < nChOut, ∀ i : ℕ,
    (i : ℤ) < (c.fftSize : ℤ) - 1 - (cnt0 : ℤ) + (j : ℤ) * (c.hopSize : ℤ) +
      ((c.fftSize : ℤ) - (c.hopSize : ℤ)) →
    s.outputBuffer ch i =
      specOut w tf str nChIn maxCh c.fftSize c.hopSize (F0 + j) ch (T + i)
  hZero : F0 + j = 0 → ∀ ch < nChOut, ∀ i, s.outputBuffer ch i = 0

/-- Completing one frame whose fill matches the specified windowed frame
advances the mid-call invariant by one frame. -/
theorem doFrame_mid (j : ℕ) (s : EngineState α) (row : ℕ → ℕ → α)
    (hcF : cnt0 + c.hopSize * F0 = T)
    (hc0 : cnt0 ≤ c.fftSize - 1)
    (hmid : Mid c w tf str nChIn nChOut maxCh B T cnt0 F0 j s)
    (hrow : ∀ ch < nChIn, ∀ i, row ch i =
      if i < c.fftSize then
        str ch ((F0 + j) * c.hopSize + i) * w i
      else s.fftInOutBuffer ch i) :
    Mid c w tf str nChIn nChOut maxCh B T cnt0 F0 (j + 1)
      (doFrame c tf nChIn maxCh row s) := by
  have hR1 : 0 < c.hopSize := c.hopSize_pos
  have hRN : c.hopSize ≤ c.fftSize := c.hopSize_le_fftSize
  have hN1 : 0 < c.fftSize := c.fftSize_pos
  -- the frame buffer after the fill and the transform is the spec frame
  have hfill : tf maxCh (updBelow nChIn s.fftInOutBuffer row) =
      specFft w tf str nChIn maxCh c.fftSize c.hopSize (F0 + j + 1) := by
    have hupd : updBelow nChIn s.fftInOutBuffer row =
        updBelow nChIn
          (specFft w tf str nChIn maxCh c.fftSize c.hopSize (F0 + j))
          (fun ch i => if i < c.fftSize then
              str ch ((F0 + j) * c.hopSize + i) * w i
            else specFft w tf str nChIn maxCh c.fftSize c.hopSize (F0 + j) ch i) := by
      funext ch i
      unfold updBelow
      by_cases hch : ch < nChIn
      · rw [if_pos hch, if_pos hch, hrow ch hch i, hmid.hFft]
      · rw [if_neg hch, if_neg hch, hmid.hFft]
    rw [hupd]
    rfl
  -- arithmetic aliases
  have hmulKR : (F0 + j) * c.hopSize = F0 * c.hopSize + j * c.hopSize :=
    Nat.add_mul F0 j c.hopSize
  have hmulcomm : c.hopSize * F0 = F0 * c.hopSize := Nat.mul_comm _ _
  have hoffN : s.outputOffset =
      ((c.fftSize - 1 - cnt0 + j * c.hopSize : ℕ) : ℤ) := by
    rw [hmid.hOff]
    push_cast
    omega
  have hotoNat : s.outputOffset.toNat = c.fftSize - 1 - cnt0 + j * c.hopSize := by
    rw [hoffN]
    exact Int.toNat_natCast _
  -- output stream base position of the current frame
  have hbase : T + (c.fftSize - 1 - cnt0 + j * c.hopSize) =
      c.fftSize - 1 + (F0 + j) * c.hopSize := by
    omega
  constructor
  · exact hmid.hnIn
  · exact hmid.hnOut
  · exact hmid.hB
  · exact hmid.hLen
  · exact hmid.hCarry
  · -- offset advanced by one hop
    show s.outputOffset + (c.hopSize : ℤ) = _
    rw [hmid.hOff]
    push_cast
    ring
  · -- frame buffer equals the spec at F0 + j + 1 frames
    show tf maxCh (updBelow nChIn s.fftInOutBuffer row) = _
    rw [hfill, Nat.add_assoc]
  · -- output buffer content
    intro ch hch i hi
    have hexp : ((j : ℤ) + 1) * (c.hopSize : ℤ) =
        (j : ℤ) * (c.hopSize : ℤ) + (c.hopSize : ℤ) := by ring
    have hi2 : (i : ℤ) <
        ((c.fftSize - 1 - cnt0 + j * c.hopSize + c.fftSize : ℕ) : ℤ) := by
      push_cast
      push_cast at hi
      omega
    have hiN : i < c.fftSize - 1 - cnt0 + j * c.hopSize + c.fftSize := by
      exact_mod_cast hi2
    rw [doFrame_outputBuffer c tf nChIn maxCh row s ch i
      (by rw [hmid.hnOut]; exact hch)]
    have hassoc : F0 + (j + 1) = F0 + j + 1 := rfl
    rw [hassoc]
    have hsum := specOut_succ w tf str nChIn maxCh c.fftSize c.hopSize
      (F0 + j) ch (T + i)
    rcases Nat.lt_or_ge i (c.fftSize - 1 - cnt0 + j * c.hopSize) with hlow | hge
    · -- below the frame: nothing added
      rw [if_neg (by rw [hoffN]; push_cast; omega),
        if_neg (by rw [hoffN]; push_cast; omega)]
      have hcontrib : specContrib w tf str nChIn maxCh c.fftSize c.hopSize
          (F0 + j) ch (T + i) = 0 :=
        specContrib_zero_low w tf str nChIn maxCh c.fftSize c.hopSize
          (F0 + j) ch (T + i) (by omega)
      rw [hmid.hOut ch hch i (by push_cast; omega), hsum, hcontrib, add_zero]
    · rcases Nat.lt_or_ge i
        (c.fftSize - 1 - cnt0 + j * c.hopSize + (c.fftSize - c.hopSize)) with
        hadd | hcopy
      · -- overlap-add region
        rw [if_pos (by rw [hoffN]; push_cast; constructor <;> omega)]
        rw [hfill, hotoNat]
        have hcontrib : specContrib w tf str nChIn maxCh c.fftSize c.hopSize
            (F0 + j) ch (T + i) =
            specFft w tf str nChIn maxCh c.fftSize c.hopSize (F0 + j + 1) ch
              (i - (c.fftSize - 1 - cnt0 + j * c.hopSize)) := by
          unfold specContrib
          rw [if_pos (by omega)]
          congr 1
          omega
        rw [hmid.hOut ch hch i (by push_cast; omega), hsum, hcontrib]
      · -- overwrite region
        rw [if_neg (by rw [hoffN]; push_cast; omega),
          if_pos (by rw [hoffN]; push_cast; constructor <;> omega)]
        rw [hfill, hotoNat]
        have hcontrib : specContrib w tf str nChIn maxCh c.fftSize c.hopSize
            (F0 + j) ch (T + i) =
            specFft w tf str nChIn maxCh c.fftSize c.hopSize (F0 + j + 1) ch
              (i - (c.fftSize - 1 - cnt0 + j * c.hopSize)) := by
          unfold specContrib
          rw [if_pos (by omega)]
          congr 1
          omega
        have hprev : specOut w tf str nChIn maxCh c.fftSize c.hopSize
            (F0 + j) ch (T + i) = 0 := by
          refine specOut_zero_high w tf str nChIn maxCh c.fftSize c.hopSize
            (F0 + j) ch (T + i) ?_
          intro k hk
          have h1 : k * c.hopSize + c.hopSize ≤ (F0 + j) * c.hopSize := by
            have h2 : (k + 1) * c.hopSize ≤ (F0 + j) * c.hopSize :=
              Nat.mul_le_mul_right c.hopSize hk
            have h3 : (k + 1) * c.hopSize = k * c.hopSize + c.hopSize :=
              Nat.succ_mul k c.hopSize
            omega
          omega
        rw [hsum, hprev, hcontrib, zero_add]
  · -- no frames case is impossible after a frame
    intro h
    omega

variable (input : ℕ → ℕ → α) (L : ℕ)

/-- Behaviour of the first gather loop: starting from the mid-call
invariant after `j` frames with nyOff `j * hopSize`, the loop completes
some further `a` frames, leaves the counter at `cnt0 - (j + a) * hopSize`,
and stops exactly when its guard fails; if it ran at least once, the last
iteration's guard held. -/
theorem loopA_mid (fuel : ℕ) :
    ∀ (j : ℕ) (s : EngineState α),
    s.notYetUsedAudioDataCount.toNat ≤ fuel →
    s.notYetUsedAudioDataCount =
      (cnt0 : ℤ) - (j : ℤ) * (c.hopSize : ℤ) →
    Mid c w tf str nChIn nChOut maxCh B T cnt0 F0 j s →
    (∀ ch < nChIn, ∀ q < L, input ch q = str ch (T + q)) →
    cnt0 + c.hopSize * F0 = T →
    cnt0 ≤ c.fftSize - 1 →
    ∃ a : ℕ,
      Mid c w tf str nChIn nChOut maxCh B T cnt0 F0 (j + a)
        (loopA c w tf nChIn maxCh input L s (j * c.hopSize)) ∧
      (loopA c w tf nChIn maxCh input L s
          (j * c.hopSize)).notYetUsedAudioDataCount =
        (cnt0 : ℤ) - ((j : ℤ) + (a : ℤ)) * (c.hopSize : ℤ) ∧
      ¬(0 < (cnt0 : ℤ) - ((j : ℤ) + (a : ℤ)) * (c.hopSize : ℤ) ∧
        (c.fftSize : ℤ) ≤
          (cnt0 : ℤ) - ((j : ℤ) + (a : ℤ)) * (c.hopSize : ℤ) + (L : ℤ)) ∧
      (a = 0 ∨ (c.fftSize : ℤ) ≤
        (cnt0 : ℤ) - ((j : ℤ) + (a : ℤ) - 1) * (c.hopSize : ℤ) + (L : ℤ)) := by
  induction fuel with
  | zero =>
    intro j s hfuel hcount hmid hInput hcF hc0
    have hR1 : 0 < c.hopSize := c.hopSize_pos
    refine ⟨0, ?_, ?_, ?_, Or.inl rfl⟩
    · rw [loopA, dif_neg (by push_cast at hcount ⊢; omega)]
      simpa using hmid
    · rw [loopA, dif_neg (by push_cast at hcount ⊢; omega)]
      rw [hcount]
      push_cast
      ring
    · intro hcon
      have h0 : s.notYetUsedAudioDataCount ≤ 0 := by omega
      rw [hcount] at h0
      push_cast at h0 hcon
      simp only [add_zero] at hcon
      omega
  | succ n ih =>
    intro j s hfuel hcount hmid hInput hcF hc0
    have hR1 : 0 < c.hopSize := c.hopSize_pos
    have hRN : c.hopSize ≤ c.fftSize := c.hopSize_le_fftSize
    have hN1 : 0 < c.fftSize := c.fftSize_pos
    by_cases hg : 0 < s.notYetUsedAudioDataCount ∧
        (c.fftSize : ℤ) ≤ s.notYetUsedAudioDataCount + (L : ℤ)
    · -- the loop runs: one frame, then the induction hypothesis
      have hjR : (j * c.hopSize : ℕ) < cnt0 := by
        have h1 := hg.1
        rw [hcount] at h1
        push_cast at h1
        omega
      have hcnt : s.notYetUsedAudioDataCount.toNat = cnt0 - j * c.hopSize := by
        rw [hcount]
        push_cast
        omega
      have hNle : c.fftSize ≤ (cnt0 - j * c.hopSize) + L := by
        have h2 := hg.2
        rw [hcount] at h2
        push_cast at h2
        omega
      -- the filled row is the specified windowed frame
      have hrow : ∀ ch < nChIn, ∀ i,
          fillFrameRow c.fftSize w (s.notYetUsedAudioData ch) (input ch)
            (s.fftInOutBuffer ch) (j * c.hopSize)
            s.notYetUsedAudioDataCount.toNat i =
          if i < c.fftSize then
            str ch ((F0 + j) * c.hopSize + i) * w i
          else s.fftInOutBuffer ch i := by
        intro ch hch i
        unfold fillFrameRow
        rw [hcnt]
        have hmulKR : (F0 + j) * c.hopSize = F0 * c.hopSize + j * c.hopSize :=
          Nat.add_mul F0 j c.hopSize
        have hmulcomm : c.hopSize * F0 = F0 * c.hopSize := Nat.mul_comm _ _
        rcases Nat.lt_or_ge i (cnt0 - j * c.hopSize) with hi1 | hi1
        · rw [if_pos hi1, if_pos (by omega)]
          rw [hmid.hCarry ch hch (j * c.hopSize + i) (by omega)]
          congr 2
          omega
        · rcases Nat.lt_or_ge i c.fftSize with hi2 | hi2
          · rw [if_neg (by omega), if_pos hi2, if_pos hi2]
            rw [hInput ch hch (i - (cnt0 - j * c.hopSize)) (by omega)]
            congr 2
            omega
          · rw [if_neg (by omega), if_neg (by omega), if_neg (by omega)]
      have hmid2 := doFrame_mid c w tf str nChIn nChOut maxCh B T cnt0 F0 j s
        (fun ch => fillFrameRow c.fftSize w (s.notYetUsedAudioData ch)
          (input ch) (s.fftInOutBuffer ch) (j * c.hopSize)
          s.notYetUsedAudioDataCount.toNat)
        hcF hc0 hmid hrow
      -- the state entering the recursive call
      set s2 := doFrame c tf nChIn maxCh
        (fun ch => fillFrameRow c.fftSize w (s.notYetUsedAudioData ch)
          (input ch) (s.fftInOutBuffer ch) (j * c.hopSize)
          s.notYetUsedAudioDataCount.toNat) s with hs2
      set s3 : EngineState α :=
        { s2 with notYetUsedAudioDataCount :=
            s2.notYetUsedAudioDataCount - (c.hopSize : ℤ) } with hs3
      have hmid3 : Mid c w tf str nChIn nChOut maxCh B T cnt0 F0 (j + 1) s3 :=
        ⟨hmid2.hnIn, hmid2.hnOut, hmid2.hB, hmid2.hLen, hmid2.hCarry,
          hmid2.hOff, hmid2.hFft, hmid2.hOut, hmid2.hZero⟩
      have hcount2 : s2.notYetUsedAudioDataCount = s.notYetUsedAudioDataCount :=
        doFrame_count c tf nChIn maxCh _ s
      have hcount3 : s3.notYetUsedAudioDataCount =
          (cnt0 : ℤ) - ((j + 1 : ℕ) : ℤ) * (c.hopSize : ℤ) := by
        show s2.notYetUsedAudioDataCount - (c.hopSize : ℤ) = _
        rw [hcount2, hcount]
        push_cast
        ring
      have hfuel3 : s3.notYetUsedAudioDataCount.toNat ≤ n := by
        have h1 : s3.notYetUsedAudioDataCount =
            s.notYetUsedAudioDataCount - (c.hopSize : ℤ) := by
          show s2.notYetUsedAudioDataCount - (c.hopSize : ℤ) = _
          rw [hcount2]
        omega
      obtain ⟨a, hA1, hA2, hA3, hA4⟩ := ih (j + 1) s3 hfuel3 hcount3 hmid3
        hInput hcF hc0
      have hunfold : loopA c w tf nChIn maxCh input L s (j * c.hopSize) =
          loopA c w tf nChIn maxCh input L s3 ((j + 1) * c.hopSize) := by
        rw [loopA, dif_pos hg]
        have : j * c.hopSize + c.hopSize = (j + 1) * c.hopSize :=
          (Nat.succ_mul j c.hopSize).symm
        rw [this]
      have hEq : (cnt0 : ℤ) - ((j : ℤ) + ((a + 1 : ℕ) : ℤ)) * (c.hopSize : ℤ) =
          (cnt0 : ℤ) - (((j + 1 : ℕ) : ℤ) + (a : ℤ)) * (c.hopSize : ℤ) := by
        push_cast
        ring
      refine ⟨a + 1, ?_, ?_, ?_, ?_⟩
      · rw [hunfold]
        have : j + (a + 1) = (j + 1) + a := by omega
        rw [this]
        exact hA1
      · rw [hunfold, hA2]
        push_cast
        ring
      · rw [hEq]
        exact hA3
      · refine Or.inr ?_
        rcases hA4 with ha0 | hlast
        · subst ha0
          have h2 := hg.2
          rw [hcount] at h2
          have : (cnt0 : ℤ) - ((j : ℤ) + ((0 + 1 : ℕ) : ℤ) - 1) * (c.hopSize : ℤ) =
              (cnt0 : ℤ) - (j : ℤ) * (c.hopSize : ℤ) := by
            push_cast
            ring
          rw [this]
          omega
        · have : (cnt0 : ℤ) - ((j : ℤ) + ((a + 1 : ℕ) : ℤ) - 1) * (c.hopSize : ℤ) =
              (cnt0 : ℤ) - (((j + 1 : ℕ) : ℤ) + (a : ℤ) - 1) * (c.hopSize : ℤ) := by
            push_cast
            ring
          rw [this]
          exact hlast
    · -- the guard fails: the loop exits immediately
      refine ⟨0, ?_, ?_, ?_, Or.inl rfl⟩
      · rw [loopA, dif_neg hg]
        simpa using hmid
      · rw [loopA, dif_neg hg]
        rw [hcount]
        push_cast
        ring
      · intro hcon
        apply hg
        rw [hcount]
        push_cast
        push_cast at hcon
        simp only [add_zero] at hcon
        omega

/-- Behaviour of the second gather loop: starting from the mid-call
invariant after `j` frames with `dataOffset = j * hopSize - cnt0`, the
loop completes some further `b` frames directly from the input block and
stops exactly when fewer than `fftSize` samples remain. -/
theorem loopB_mid (fuel : ℕ) :
    ∀ (j : ℕ) (s : EngineState α) (dataOffset : ℤ),
    ((L : ℤ) - dataOffset).toNat ≤ fuel →
    dataOffset = (j : ℤ) * (c.hopSize : ℤ) - (cnt0 : ℤ) →
    cnt0 ≤ j * c.hopSize →
    Mid c w tf str nChIn nChOut maxCh B T cnt0 F0 j s →
    (∀ ch < nChIn, ∀ q < L, input ch q = str ch (T + q)) →
    cnt0 + c.hopSize * F0 = T →
    cnt0 ≤ c.fftSize - 1 →
    ∃ b : ℕ,
      Mid c w tf str nChIn nChOut maxCh B T cnt0 F0 (j + b)
        (loopB c w tf nChIn maxCh input L s dataOffset).1 ∧
      (loopB c w tf nChIn maxCh input L s dataOffset).2 =
        ((j : ℤ) + (b : ℤ)) * (c.hopSize : ℤ) - (cnt0 : ℤ) ∧
      (loopB c w tf nChIn maxCh input L s dataOffset).1.notYetUsedAudioDataCount
        = s.notYetUsedAudioDataCount ∧
      ¬((c.fftSize : ℤ) ≤ (L : ℤ) -
          (((j : ℤ) + (b : ℤ)) * (c.hopSize : ℤ) - (cnt0 : ℤ))) ∧
      (b = 0 ∨ (c.fftSize : ℤ) ≤ (L : ℤ) -
          (((j : ℤ) + (b : ℤ) - 1) * (c.hopSize : ℤ) - (cnt0 : ℤ))) := by
  induction fuel with
  | zero =>
    intro j s dataOffset hfuel hoffv hjcnt hmid hInput hcF hc0
    have hN1 : 0 < c.fftSize := c.fftSize_pos
    have hstop : ¬((c.fftSize : ℤ) ≤ (L : ℤ) - dataOffset) := by omega
    refine ⟨0, ?_, ?_, ?_, ?_, Or.inl rfl⟩
    · rw [loopB, dif_neg hstop]
      simpa using hmid
    · rw [loopB, dif_neg hstop]
      rw [hoffv]
      push_cast
      ring
    · rw [loopB, dif_neg hstop]
    · intro hcon
      apply hstop
      rw [hoffv]
      push_cast at hcon ⊢
      simp only [add_zero] at hcon
      omega
  | succ n ih =>
    intro j s dataOffset hfuel hoffv hjcnt hmid hInput hcF hc0
    have hR1 : 0 < c.hopSize := c.hopSize_pos
    have hRN : c.hopSize ≤ c.fftSize := c.hopSize_le_fftSize
    have hN1 : 0 < c.fftSize := c.fftSize_pos
    by_cases hg : (c.fftSize : ℤ) ≤ (L : ℤ) - dataOffset
    · -- the loop runs: one frame, then the induction hypothesis
      have hoff0 : (0 : ℤ) ≤ dataOffset := by
        rw [hoffv]
        push_cast
        omega
      have hoffNat : dataOffset.toNat = j * c.hopSize - cnt0 := by
        rw [hoffv]
        push_cast
        omega
      have hrow : ∀ ch < nChIn, ∀ i,
          fillFrameRow c.fftSize w (fun _ => 0)
            (fun i => input ch (dataOffset.toNat + i))
            (s.fftInOutBuffer ch) 0 0 i =
          if i < c.fftSize then
            str ch ((F0 + j) * c.hopSize + i) * w i
          else s.fftInOutBuffer ch i := by
        intro ch hch i
        unfold fillFrameRow
        rw [if_neg (by omega)]
        rcases Nat.lt_or_ge i c.fftSize with hi2 | hi2
        · rw [if_pos hi2, if_pos hi2]
          have hread : dataOffset.toNat + i < L := by
            have : (dataOffset : ℤ) + (i : ℤ) < (L : ℤ) := by omega
            omega
          show input ch (dataOffset.toNat + i) * w i = _
          rw [hInput ch hch (dataOffset.toNat + i) hread]
          have hmulKR : (F0 + j) * c.hopSize = F0 * c.hopSize + j * c.hopSize :=
            Nat.add_mul F0 j c.hopSize
          have hmulcomm : c.hopSize * F0 = F0 * c.hopSize := Nat.mul_comm _ _
          have hcnt0T : cnt0 ≤ T := by omega
          congr 2
          rw [hoffNat]
          omega
        · rw [if_neg (by omega), if_neg (by omega)]
      have hmid2 := doFrame_mid c w tf str nChIn nChOut maxCh B T cnt0 F0 j s
        (fun ch => fillFrameRow c.fftSize w (fun _ => 0)
          (fun i => input ch (dataOffset.toNat + i))
          (s.fftInOutBuffer ch) 0 0)
        hcF hc0 hmid hrow
      set s2 := doFrame c tf nChIn maxCh
        (fun ch => fillFrameRow c.fftSize w (fun _ => 0)
          (fun i => input ch (dataOffset.toNat + i))
          (s.fftInOutBuffer ch) 0 0) s with hs2
      have hoffv2 : dataOffset + (c.hopSize : ℤ) =
          ((j + 1 : ℕ) : ℤ) * (c.hopSize : ℤ) - (cnt0 : ℤ) := by
        rw [hoffv]
        push_cast
        ring
      have hjcnt2 : cnt0 ≤ (j + 1) * c.hopSize := by
        have : j * c.hopSize ≤ (j + 1) * c.hopSize :=
          Nat.mul_le_mul_right _ (by omega)
        omega
      have hfuel2 : ((L : ℤ) - (dataOffset + (c.hopSize : ℤ))).toNat ≤ n := by
        omega
      have hcount2 : s2.notYetUsedAudioDataCount = s.notYetUsedAudioDataCount :=
        doFrame_count c tf nChIn maxCh _ s
      obtain ⟨b, hB1, hB2, hB3, hB4, hB5⟩ := ih (j + 1) s2
        (dataOffset + (c.hopSize : ℤ)) hfuel2 hoffv2 hjcnt2 hmid2 hInput hcF hc0
      have hunfold : loopB c w tf nChIn maxCh input L s dataOffset =
          loopB c w tf nChIn maxCh input L s2 (dataOffset + (c.hopSize : ℤ)) := by
        rw [loopB, dif_pos hg]
      have hEq : (((j : ℤ) + ((b + 1 : ℕ) : ℤ)) * (c.hopSize : ℤ) - (cnt0 : ℤ)) =
          ((((j + 1 : ℕ) : ℤ) + (b : ℤ)) * (c.hopSize : ℤ) - (cnt0 : ℤ)) := by
        push_cast
        ring
      refine ⟨b + 1, ?_, ?_, ?_, ?_, ?_⟩
      · rw [hunfold]
        have : j + (b + 1) = (j + 1) + b := by omega
        rw [this]
        exact hB1
      · rw [hunfold, hB2]
        push_cast
        ring
      · rw [hunfold, hB3, hcount2]
      · rw [hEq]
        exact hB4
      · refine Or.inr ?_
        rcases hB5 with hb0 | hlast
        · subst hb0
          have : (((j : ℤ) + ((0 + 1 : ℕ) : ℤ) - 1) * (c.hopSize : ℤ) -
              (cnt0 : ℤ)) = dataOffset := by
            rw [hoffv]
            push_cast
            ring
          rw [this]
          exact hg
        · have : (((j : ℤ) + ((b + 1 : ℕ) : ℤ) - 1) * (c.hopSize : ℤ) -
              (cnt0 : ℤ)) =
              ((((j + 1 : ℕ) : ℤ) + (b : ℤ) - 1) * (c.hopSize : ℤ) -
                (cnt0 : ℤ)) := by
            push_cast
            ring
          rw [this]
          exact hlast
    · -- the guard fails: the loop exits immediately
      refine ⟨0, ?_, ?_, ?_, ?_, Or.inl rfl⟩
      · rw [loopB, dif_neg hg]
        simpa using hmid
      · rw [loopB, dif_neg hg]
        rw [hoffv]
        push_cast
        ring
      · rw [loopB, dif_neg hg]
      · intro hcon
        apply hg
        rw [hoffv]
        push_cast at hcon ⊢
        simp only [add_zero] at hcon
        omega

/-- State description after the carry phase of a call of `L` samples has
completed, with `cnt1 = carryCount (T + L)` and `F1 = framesTotal (T + L)`:
the carry-over buffer now holds the tail of the extended stream, the
output offset has advanced by all frames completed during the call, and
the output buffer holds the specified overlap-add sums on the (enlarged)
valid region.  Emission has not yet taken place. -/
structure PostCarry (L cnt1 F1 : ℕ) (s : EngineState α) : Prop where
  pnIn : s.nChIn = nChIn
  pnOut : s.nChOut = nChOut
  pB : s.maxBlockSize = B
  pLen : s.outputBufferLen =
    (1 + (B - 1) / c.hopSize) * c.hopSize + (c.fftSize - c.hopSize) + B - 1
  pCount : s.notYetUsedAudioDataCount = (cnt1 : ℤ)
  pCarry : ∀ ch < nChIn, ∀ i < cnt1,
    s.notYetUsedAudioData ch i = str ch (T + L - cnt1 + i)
  pOff : s.outputOffset = (c.fftSize : ℤ) - 1 + (L : ℤ) - (cnt1 : ℤ)
  pFft : s.fftInOutBuffer =
    specFft w tf str nChIn maxCh c.fftSize c.hopSize F1
  pOut : ∀ ch < nChOut, ∀ i : ℕ,
    (i : ℤ) < (c.fftSize : ℤ) - 1 + (L : ℤ) - (cnt1 : ℤ) +
      ((c.fftSize : ℤ) - (c.hopSize : ℤ)) →
    s.outputBuffer ch i =
      specOut w tf str nChIn maxCh c.fftSize c.hopSize F1 ch (T + i)
  pZero : F1 = 0 → ∀ ch < nChOut, ∀ i, s.outputBuffer ch i = 0

/-- Main lemma about the carry phase: running the gather loops and the
carry-over update of one `process` call transforms the call-start
invariant into the post-carry description at `T + L`. -/
theorem carryPhase_spec (s : EngineState α) (cnt1 F1 : ℕ)
    (hcnt0 : cnt0 = carryCount c.fftSize c.hopSize T)
    (hF0v : F0 = framesTotal c.fftSize c.hopSize T)
    (hcnt1 : cnt1 = carryCount c.fftSize c.hopSize (T + L))
    (hF1v : F1 = framesTotal c.fftSize c.hopSize (T + L))
    (hcount : s.notYetUsedAudioDataCount = (cnt0 : ℤ))
    (hmid : Mid c w tf str nChIn nChOut maxCh B T cnt0 F0 0 s)
    (hInput : ∀ ch < nChIn, ∀ q < L, input ch q = str ch (T + q)) :
    PostCarry c w tf str nChIn nChOut maxCh B T L cnt1 F1
      (carryPhase c w tf nChIn maxCh input L s) := by
  have hR1 : 0 < c.hopSize := c.hopSize_pos
  have hRN : c.hopSize ≤ c.fftSize := c.hopSize_le_fftSize
  have hN1 : 0 < c.fftSize := c.fftSize_pos
  have hc0 : cnt0 ≤ c.fftSize - 1 := by
    rw [hcnt0]; exact carryCount_le _ _ _ hR1 hRN hN1
  have hcF : cnt0 + c.hopSize * F0 = T := by
    rw [hcnt0, hF0v]; exact carryCount_add_mul _ _ _ hR1 hRN
  have hcount0 : s.notYetUsedAudioDataCount =
      (cnt0 : ℤ) - ((0 : ℕ) : ℤ) * (c.hopSize : ℤ) := by
    rw [hcount]; push_cast; ring
  obtain ⟨a, hA1, hA2, hA3, hA4⟩ :=
    loopA_mid c w tf str nChIn nChOut maxCh B T cnt0 F0 input L
      s.notYetUsedAudioDataCount.toNat 0 s le_rfl hcount0 hmid hInput hcF hc0
  rw [Nat.zero_mul] at hA1 hA2
  simp only [Nat.cast_zero, zero_add] at hA1 hA2 hA3 hA4
  -- glue between cast product forms
  have hyA : ((a : ℤ) - 1) * (c.hopSize : ℤ) =
      (a : ℤ) * (c.hopSize : ℤ) - (c.hopSize : ℤ) := by ring
  have hcastA : ((a * c.hopSize : ℕ) : ℤ) = (a : ℤ) * (c.hopSize : ℤ) := by
    push_cast; ring
  set sA := loopA c w tf nChIn maxCh input L s 0 with hsA
  by_cases hpos : 0 < sA.notYetUsedAudioDataCount
  · -- append branch: remaining carry plus the whole new block
    have haR : (a : ℤ) * (c.hopSize : ℤ) < (cnt0 : ℤ) := by
      rw [hA2] at hpos; omega
    have hfin : (cnt0 : ℤ) - (a : ℤ) * (c.hopSize : ℤ) + (L : ℤ) <
        (c.fftSize : ℤ) := by
      rcases (not_and.1 hA3) (by omega) with h
      omega
    have hcntA : sA.notYetUsedAudioDataCount.toNat = cnt0 - a * c.hopSize := by
      rw [hA2]; push_cast; omega
    have haRN : a * c.hopSize < cnt0 := by omega
    -- identify the new carry count via the schedule uniqueness
    have hbal : carryCount c.fftSize c.hopSize T + L =
        (cnt0 - a * c.hopSize + L) + a * c.hopSize := by omega
    have hlt : cnt0 - a * c.hopSize + L < c.fftSize := by omega
    have hpin : a = 0 ∨ c.fftSize ≤ (cnt0 - a * c.hopSize + L) + c.hopSize := by
      rcases hA4 with h | h
      · exact Or.inl h
      · exact Or.inr (by omega)
    obtain ⟨hcnt1eq, hF1eq⟩ := carry_step c.fftSize c.hopSize T L a
      (cnt0 - a * c.hopSize + L) hR1 hRN hbal hlt hpin
    have hcnt1v : cnt1 = cnt0 - a * c.hopSize + L := by omega
    have hF1veq : F1 = F0 + a := by omega
    -- evaluate the carry phase in this branch
    have hcp : carryPhase c w tf nChIn maxCh input L s =
        { sA with
          notYetUsedAudioData := updBelow nChIn sA.notYetUsedAudioData
            (fun ch i =>
              if i < sA.notYetUsedAudioDataCount.toNat then
                sA.notYetUsedAudioData ch
                  ((s.notYetUsedAudioDataCount -
                    (sA.notYetUsedAudioDataCount.toNat : ℤ)).toNat + i)
              else if i < sA.notYetUsedAudioDataCount.toNat + L then
                input ch (i - sA.notYetUsedAudioDataCount.toNat)
              else sA.notYetUsedAudioData ch i),
          notYetUsedAudioDataCount :=
            sA.notYetUsedAudioDataCount + (L : ℤ) } := by
      rw [carryPhase]
      simp only [← hsA]
      rw [if_pos hpos]
    rw [hcp]
    have hshift : (s.notYetUsedAudioDataCount -
        (sA.notYetUsedAudioDataCount.toNat : ℤ)).toNat = a * c.hopSize := by
      rw [hcount, hcntA]
      push_cast
      omega
    constructor
    · exact hA1.hnIn
    · exact hA1.hnOut
    · exact hA1.hB
    · exact hA1.hLen
    · show sA.notYetUsedAudioDataCount + (L : ℤ) = (cnt1 : ℤ)
      rw [hA2, hcnt1v]
      push_cast
      omega
    · -- carry rows hold the stream tail
      intro ch hch i hi
      show updBelow nChIn sA.notYetUsedAudioData
        (fun ch i =>
          if i < sA.notYetUsedAudioDataCount.toNat then
            sA.notYetUsedAudioData ch
              ((s.notYetUsedAudioDataCount -
                (sA.notYetUsedAudioDataCount.toNat : ℤ)).toNat + i)
          else if i < sA.notYetUsedAudioDataCount.toNat + L then
            input ch (i - sA.notYetUsedAudioDataCount.toNat)
          else sA.notYetUsedAudioData ch i) ch i = _
      rw [updBelow_app, if_pos hch, hshift, hcntA]
      rcases Nat.lt_or_ge i (cnt0 - a * c.hopSize) with hi1 | hi1
      · rw [if_pos hi1]
        rw [hA1.hCarry ch hch (a * c.hopSize + i) (by omega)]
        congr 1
        omega
      · rw [if_neg (by omega), if_pos (by omega)]
        rw [hInput ch hch (i - (cnt0 - a * c.hopSize)) (by omega)]
        congr 1
        omega
    · show sA.outputOffset = _
      rw [hA1.hOff, hcnt1v]
      push_cast
      omega
    · show sA.fftInOutBuffer = _
      rw [hA1.hFft, hF1veq]
    · intro ch hch i hi
      show sA.outputBuffer ch i = _
      rw [hA1.hOut ch hch i (by rw [hcnt1v] at hi; push_cast at hi ⊢; omega),
        hF1veq]
    · intro hF10
      have h00 : F0 + a = 0 := by omega
      exact hA1.hZero h00
  · -- direct branch: all carry consumed, frames taken from the block
    have hcle : (cnt0 : ℤ) - (a : ℤ) * (c.hopSize : ℤ) ≤ 0 := by
      rw [hA2] at hpos; omega
    have hjcnt : cnt0 ≤ a * c.hopSize := by omega
    have hoffv : - sA.notYetUsedAudioDataCount =
        (a : ℤ) * (c.hopSize : ℤ) - (cnt0 : ℤ) := by
      rw [hA2]; ring
    obtain ⟨b, hB1, hB2, hB3, hB4, hB5⟩ :=
      loopB_mid c w tf str nChIn nChOut maxCh B T cnt0 F0 input L
        ((L : ℤ) - (- sA.notYetUsedAudioDataCount)).toNat a sA
        (- sA.notYetUsedAudioDataCount) le_rfl hoffv hjcnt hA1 hInput hcF hc0
    set pb := loopB c w tf nChIn maxCh input L sA
      (- sA.notYetUsedAudioDataCount) with hpb
    -- more cast glue
    have hyAB : ((a : ℤ) + (b : ℤ)) * (c.hopSize : ℤ) =
        (a : ℤ) * (c.hopSize : ℤ) + (b : ℤ) * (c.hopSize : ℤ) := by ring
    have hyAB1 : ((a : ℤ) + (b : ℤ) - 1) * (c.hopSize : ℤ) =
        (a : ℤ) * (c.hopSize : ℤ) + (b : ℤ) * (c.hopSize : ℤ) -
          (c.hopSize : ℤ) := by ring
    have hcastB : ((b * c.hopSize : ℕ) : ℤ) = (b : ℤ) * (c.hopSize : ℤ) := by
      push_cast; ring
    have hcastAB : (((a + b) * c.hopSize : ℕ) : ℤ) =
        (a : ℤ) * (c.hopSize : ℤ) + (b : ℤ) * (c.hopSize : ℤ) := by
      push_cast; ring
    -- the remaining sample count
    have hrem : (L : ℤ) - pb.2 =
        (L : ℤ) - (((a : ℤ) + (b : ℤ)) * (c.hopSize : ℤ) - (cnt0 : ℤ)) := by
      rw [hB2]
    have hremlt : (L : ℤ) - pb.2 < (c.fftSize : ℤ) := by
      have h := hB4
      omega
    have hrem0 : 0 ≤ (L : ℤ) - pb.2 := by
      rcases Nat.eq_zero_or_pos b with hb0 | hbpos
      · have hbz : (b : ℤ) * (c.hopSize : ℤ) = 0 := by
          subst hb0; push_cast; ring
        rcases Nat.eq_zero_or_pos a with ha0 | hapos
        · have haz : (a : ℤ) * (c.hopSize : ℤ) = 0 := by
            subst ha0; push_cast; ring
          omega
        · rcases hA4 with h | h
          · omega
          · omega
      · rcases hB5 with h | h
        · omega
        · omega
    have hpin : (a + b) = 0 ∨
        c.fftSize ≤ ((L : ℤ) - pb.2).toNat + c.hopSize := by
      rcases Nat.eq_zero_or_pos b with hb0 | hbpos
      · have hbz : (b : ℤ) * (c.hopSize : ℤ) = 0 := by
          subst hb0; push_cast; ring
        rcases Nat.eq_zero_or_pos a with ha0 | hapos
        · exact Or.inl (by omega)
        · refine Or.inr ?_
          rcases hA4 with h | h
          · omega
          · have hx : ((c.fftSize : ℕ) : ℤ) ≤
                ((((L : ℤ) - pb.2).toNat : ℕ) : ℤ) + (c.hopSize : ℤ) := by
              push_cast
              omega
            exact_mod_cast hx
      · refine Or.inr ?_
        rcases hB5 with h | h
        · omega
        · have hx : ((c.fftSize : ℕ) : ℤ) ≤
              ((((L : ℤ) - pb.2).toNat : ℕ) : ℤ) + (c.hopSize : ℤ) := by
            push_cast
            omega
          exact_mod_cast hx
    have hbal : carryCount c.fftSize c.hopSize T + L =
        ((L : ℤ) - pb.2).toNat + (a + b) * c.hopSize := by
      have hx : ((carryCount c.fftSize c.hopSize T + L : ℕ) : ℤ) =
          ((((L : ℤ) - pb.2).toNat + (a + b) * c.hopSize : ℕ) : ℤ) := by
        rw [← hcnt0]
        push_cast
        omega
      exact_mod_cast hx
    have hlt : ((L : ℤ) - pb.2).toNat < c.fftSize := by omega
    obtain ⟨hcnt1eq, hF1eq⟩ := carry_step c.fftSize c.hopSize T L (a + b)
      (((L : ℤ) - pb.2).toNat) hR1 hRN hbal hlt hpin
    have hcnt1v : (cnt1 : ℤ) = (L : ℤ) - pb.2 := by
      rw [hcnt1, ← hcnt1eq]
      rw [Int.toNat_of_nonneg hrem0]
    have hF1veq : F1 = F0 + (a + b) := by omega
    -- evaluate the carry phase in this branch
    have hcp : carryPhase c w tf nChIn maxCh input L s =
        { pb.1 with
          notYetUsedAudioData :=
            if 0 < (L : ℤ) - pb.2 then
              updBelow nChIn pb.1.notYetUsedAudioData
                (fun ch i =>
                  if i < ((L : ℤ) - pb.2).toNat then
                    input ch (pb.2.toNat + i)
                  else pb.1.notYetUsedAudioData ch i)
            else pb.1.notYetUsedAudioData,
          notYetUsedAudioDataCount := (L : ℤ) - pb.2 } := by
      rw [carryPhase]
      simp only [← hsA]
      rw [if_neg hpos]
    rw [hcp]
    have hoffB0 : 0 ≤ pb.2 := by
      rw [hB2]
      omega
    have hoffBNat : (pb.2.toNat : ℤ) =
        (a : ℤ) * (c.hopSize : ℤ) + (b : ℤ) * (c.hopSize : ℤ) - (cnt0 : ℤ) := by
      rw [Int.toNat_of_nonneg hoffB0, hB2, hyAB]
    constructor
    · exact hB1.hnIn
    · exact hB1.hnOut
    · exact hB1.hB
    · exact hB1.hLen
    · show (L : ℤ) - pb.2 = (cnt1 : ℤ)
      omega
    · -- carry rows hold the stream tail
      intro ch hch i hi
      rcases Nat.eq_zero_or_pos cnt1 with hc10 | hc1pos
      · omega
      · have hrpos : 0 < (L : ℤ) - pb.2 := by omega
        show (if 0 < (L : ℤ) - pb.2 then
            updBelow nChIn pb.1.notYetUsedAudioData
              (fun ch i =>
                if i < ((L : ℤ) - pb.2).toNat then
                  input ch (pb.2.toNat + i)
                else pb.1.notYetUsedAudioData ch i)
          else pb.1.notYetUsedAudioData) ch i = _
        rw [if_pos hrpos, updBelow_app, if_pos hch, if_pos (by omega)]
        rw [hInput ch hch (pb.2.toNat + i) (by omega)]
        congr 1
        omega
    · show pb.1.outputOffset = _
      rw [hB1.hOff]
      have hcc : ((a + b : ℕ) : ℤ) * (c.hopSize : ℤ) =
          (a : ℤ) * (c.hopSize : ℤ) + (b : ℤ) * (c.hopSize : ℤ) := by
        push_cast; ring
      omega
    · show pb.1.fftInOutBuffer = _
      rw [hB1.hFft, hF1veq]
    · intro ch hch i hi
      show pb.1.outputBuffer ch i = _
      have hcc : ((a + b : ℕ) : ℤ) * (c.hopSize : ℤ) =
          (a : ℤ) * (c.hopSize : ℤ) + (b : ℤ) * (c.hopSize : ℤ) := by
        push_cast; ring
      rw [hB1.hOut ch hch i (by push_cast at hi ⊢; omega), hF1veq]
    · intro hF10
      have h00 : F0 + (a + b) = 0 := by omega
      exact hB1.hZero h00

end MidCall

/-- Any position `p` lies strictly below the coverage start of the first
frame not counted by `framesTotal (p + 1)`. -/
theorem framesTotal_covers (N R p : ℕ) (hR : 0 < R) (hN : 0 < N) :
    p < N - 1 + framesTotal N R (p + 1) * R := by
  rcases Nat.lt_or_ge (p + 1) N with h | h
  · rw [(framesTotal_zero_iff N R (p + 1) hN).2 h]
    omega
  · rw [framesTotal_of_ge N R (p + 1) h]
    have h1 := Nat.div_add_mod (p + 1 - N) R
    have h2 := Nat.mod_lt (p + 1 - N) hR
    have h3 : ((p + 1 - N) / R + 1) * R = ((p + 1 - N) / R) * R + R :=
      Nat.succ_mul _ _
    have h4 : ((p + 1 - N) / R) * R = R * ((p + 1 - N) / R) := Nat.mul_comm _ _
    omega

/-- Once at least `framesTotal (p + 1)` frames are folded in, the value at
output position `p` is final. -/
theorem specOut_eq_final (w : ℕ → α) (tf : FrameTransform α)
    (str : ℕ → ℕ → α) (numChIn maxCh N R : ℕ) (F ch p : ℕ)
    (hR : 0 < R) (hN : 0 < N) (hF : framesTotal N R (p + 1) ≤ F) :
    specOut w tf str numChIn maxCh N R F ch p =
      specOutFinal w tf str numChIn maxCh N R ch p := by
  unfold specOutFinal
  exact specOut_stable w tf str numChIn maxCh N R _ F ch p hF
    (framesTotal_covers N R p hR hN)

/-- Sizing guarantee of `prepare`: the allocated output buffer capacity
`k * hopSize + (fftSize - hopSize) + maxBlockSize - 1` is at least
`fftSize + maxBlockSize - 1`. -/
theorem capacity_ge (N R B : ℕ) (hR : 0 < R) (hRN : R ≤ N) :
    N + B - 1 ≤ (1 + (B - 1) / R) * R + (N - R) + B - 1 := by
  rcases Nat.lt_or_ge B R with h | h
  · have h0 : (B - 1) / R = 0 := Nat.div_eq_of_lt (by omega)
    rw [h0]
    omega
  · have h1 := Nat.div_add_mod (B - 1) R
    have h2 := Nat.mod_lt (B - 1) hR
    have h3 : (1 + (B - 1) / R) * R = R + ((B - 1) / R) * R := by ring
    have h4 : ((B - 1) / R) * R = R * ((B - 1) / R) := Nat.mul_comm _ _
    omega

section Emit

variable (c : Cfg) (w : ℕ → α) (tf : FrameTransform α) (str : ℕ → ℕ → α)
variable (nChIn nChOut maxCh B : ℕ)

/-- Call-boundary invariant of the engine: the state after `prepare` and
after every complete `process` call of a run that has consumed `T` stream
samples. -/
structure Inv (T : ℕ) (s : EngineState α) : Prop where
  icount : s.notYetUsedAudioDataCount =
    (carryCount c.fftSize c.hopSize T : ℤ)
  imid : Mid c w tf str nChIn nChOut maxCh B T
    (carryCount c.fftSize c.hopSize T) (framesTotal c.fftSize c.hopSize T) 0 s

/-- Emission lemma: from the post-carry description, the emission phase
returns the next `L` specified output samples and restores the
call-boundary invariant at `T + L`.  Needs `L ≤ maxBlockSize` so that the
defensive clamp never discards buffered data. -/
theorem emitPhase_spec (T L cnt1 F1 : ℕ) (s : EngineState α)
    (hLB : L ≤ B)
    (hcnt1 : cnt1 = carryCount c.fftSize c.hopSize (T + L))
    (hF1v : F1 = framesTotal c.fftSize c.hopSize (T + L))
    (hpc : PostCarry c w tf str nChIn nChOut maxCh B T L cnt1 F1 s) :
    Inv c w tf str nChIn nChOut maxCh B (T + L)
      (emitPhase c nChOut L s).1 ∧
    (∀ ch i, (emitPhase c nChOut L s).2 ch i =
      if ch < nChOut ∧ i < L then
        specOutFinal w tf str nChIn maxCh c.fftSize c.hopSize ch (T + i)
      else 0) := by
  have hR1 : 0 < c.hopSize := c.hopSize_pos
  have hRN : c.hopSize ≤ c.fftSize := c.hopSize_le_fftSize
  have hN1 : 0 < c.fftSize := c.fftSize_pos
  have hc1 : cnt1 ≤ c.fftSize - 1 := by
    rw [hcnt1]; exact carryCount_le _ _ _ hR1 hRN hN1
  -- the requested shift length
  have hreq : shiftLReq c s L =
      2 * (c.fftSize : ℤ) - (c.hopSize : ℤ) - 1 - (cnt1 : ℤ) := by
    unfold shiftLReq
    rw [hpc.pOff]
    push_cast
    omega
  -- values in the output block
  have hout : ∀ ch i, (emitPhase c nChOut L s).2 ch i =
      if ch < nChOut ∧ i < L then
        specOutFinal w tf str nChIn maxCh c.fftSize c.hopSize ch (T + i)
      else 0 := by
    intro ch i
    show (if ch < nChOut ∧ i < L then s.outputBuffer ch i else 0) = _
    by_cases h : ch < nChOut ∧ i < L
    · rw [if_pos h, if_pos h]
      rw [hpc.pOut ch h.1 i (by push_cast; omega)]
      refine specOut_eq_final w tf str nChIn maxCh c.fftSize c.hopSize
        F1 ch (T + i) hR1 hN1 ?_
      rw [hF1v]
      exact framesTotal_mono _ _ (by omega)
    · rw [if_neg h, if_neg h]
  -- a convenient description of the shifted output buffer
  have hbuf : ∀ ch i, (emitPhase c nChOut L s).1.outputBuffer ch i =
      if ch < nChOut then
        (if (i : ℤ) < shiftLClamped c s L then s.outputBuffer ch (L + i)
          else s.outputBuffer ch i)
      else s.outputBuffer ch i := by
    intro ch i
    simp only [emitPhase]
    rw [updBelow_app]
  refine ⟨⟨?_, ?_, ?_, ?_, ?_, ?_, ?_, ?_, ?_, ?_⟩, hout⟩
  · -- counter unchanged by emission
    show s.notYetUsedAudioDataCount = _
    rw [hpc.pCount, hcnt1]
  · show s.nChIn = nChIn
    exact hpc.pnIn
  · show s.nChOut = nChOut
    exact hpc.pnOut
  · show s.maxBlockSize = B
    exact hpc.pB
  · show s.outputBufferLen = _
    exact hpc.pLen
  · -- carry rows: unchanged, restated at T + L
    intro ch hch i hi
    show s.notYetUsedAudioData ch i = _
    rw [hpc.pCarry ch hch i (by omega), hcnt1]
  · -- offset decremented by L
    show s.outputOffset - (L : ℤ) = _
    rw [hpc.pOff, ← hcnt1]
    push_cast
    ring
  · -- frame buffer unchanged
    show s.fftInOutBuffer = _
    rw [hpc.pFft, hF1v]
    rfl
  · -- output buffer: shifted by L on the valid region
    intro ch hch i hi
    rw [hbuf, if_pos hch]
    rcases Nat.eq_zero_or_pos F1 with hF10 | hF1pos
    · -- nothing buffered yet: everything is zero
      have hz := hpc.pZero hF10
      have hspec : specOut w tf str nChIn maxCh c.fftSize c.hopSize
          (framesTotal c.fftSize c.hopSize (T + L) + 0) ch (T + L + i) = 0 := by
        rw [← hF1v, hF10]
        simp [specOut]
      rw [hspec]
      split
      · exact hz ch hch (L + i)
      · exact hz ch hch i
    · -- at least one frame: the clamp is inactive and the shift is exact
      have hTL : c.fftSize ≤ T + L := by
        by_contra hcon
        push_neg at hcon
        rw [hF1v, (framesTotal_zero_iff _ _ _ hN1).2 hcon] at hF1pos
        omega
      have hcnt1ge : c.fftSize - c.hopSize ≤ cnt1 := by
        rw [hcnt1]
        exact carryCount_ge _ _ _ hR1 hRN hTL
      have hcap := capacity_ge c.fftSize c.hopSize B hR1 hRN
      have hnoclamp : ¬ 0 < tooMuchOf c s L := by
        unfold tooMuchOf
        rw [hreq, hpc.pLen]
        push_cast
        omega
      have hclamp : shiftLClamped c s L = shiftLReq c s L := by
        unfold shiftLClamped
        rw [if_neg hnoclamp]
      rw [hclamp, hreq] at hbuf ⊢
      have hilt : (i : ℤ) <
          2 * (c.fftSize : ℤ) - (c.hopSize : ℤ) - 1 - (cnt1 : ℤ) := by
        push_cast at hi
        omega
      rw [if_pos hilt]
      rw [hpc.pOut ch hch (L + i) (by push_cast; omega)]
      rw [← hF1v]
      congr 1
      omega
  · -- all-zero case preserved
    intro h0 ch hch i
    have hF10 : F1 = 0 := by omega
    have hz := hpc.pZero hF10
    rw [hbuf, if_pos hch]
    split
    · exact hz ch hch (L + i)
    · exact hz ch hch i

/-- Single-call soundness: a `process` call of `L ≤ maxBlockSize` samples
on an invariant state consumes `L` stream samples, emits the next `L`
specified output samples on the first `nChOut` channels (zeros above),
and restores the invariant. -/
theorem process_spec (T L : ℕ) (s : EngineState α)
    (input : ℕ → ℕ → α) (inBlkCh outBlkCh : ℕ)
    (hmax : maxCh = max nChIn nChOut)
    (hInCh : nChIn ≤ inBlkCh) (hOutCh : nChOut ≤ outBlkCh)
    (hLB : L ≤ B)
    (hinv : Inv c w tf str nChIn nChOut maxCh B T s)
    (hInput : ∀ ch < nChIn, ∀ q < L, input ch q = str ch (T + q)) :
    Inv c w tf str nChIn nChOut maxCh B (T + L)
      (process c w tf s input L inBlkCh outBlkCh).1 ∧
    (∀ ch i, (process c w tf s input L inBlkCh outBlkCh).2 ch i =
      if ch < nChOut ∧ i < L then
        specOutFinal w tf str nChIn maxCh c.fftSize c.hopSize ch (T + i)
      else 0) := by
  have hmin1 : min inBlkCh s.nChIn = nChIn := by
    rw [hinv.imid.hnIn]
    omega
  have hmin2 : min outBlkCh s.nChOut = nChOut := by
    rw [hinv.imid.hnOut]
    omega
  have hproc : process c w tf s input L inBlkCh outBlkCh =
      emitPhase c nChOut L
        (carryPhase c w tf nChIn maxCh input L s) := by
    rw [process]
    rw [hmin1, hmin2, ← hmax]
  have hpc := carryPhase_spec c w tf str nChIn nChOut maxCh B T
    (carryCount c.fftSize c.hopSize T) (framesTotal c.fftSize c.hopSize T)
    input L s (carryCount c.fftSize c.hopSize (T + L))
    (framesTotal c.fftSize c.hopSize (T + L)) rfl rfl rfl rfl
    hinv.icount hinv.imid hInput
  have hem := emitPhase_spec c w tf str nChIn nChOut maxCh B T L
    (carryCount c.fftSize c.hopSize (T + L))
    (framesTotal c.fftSize c.hopSize (T + L))
    (carryPhase c w tf nChIn maxCh input L s) hLB rfl rfl hpc
  rw [hproc]
  exact hem

end Emit

/-- Each block of the list matches the stream `str` at consecutive
offsets starting from `T`, on the first `nChIn` channels. -/
def CallsMatch (nChIn : ℕ) (str : ℕ → ℕ → α) :
    ℕ → List (ℕ × (ℕ → ℕ → α)) → Prop
  | _, [] => True
  | T, (L, blk) :: rest =>
    (∀ ch < nChIn, ∀ q < L, blk ch q = str ch (T + q)) ∧
      CallsMatch nChIn str (T + L) rest

/-- Each output block of the list equals the reference output stream `g`
at consecutive offsets starting from `T` on the first `nChOut` channels
and is zero elsewhere. -/
def OutsMatch (nChOut : ℕ) (g : ℕ → ℕ → α) :
    ℕ → List (ℕ × (ℕ → ℕ → α)) → Prop
  | _, [] => True
  | T, (L, blk) :: rest =>
    (∀ ch i, blk ch i = if ch < nChOut ∧ i < L then g ch (T + i) else 0) ∧
      OutsMatch nChOut g (T + L) rest

section Run

variable (c : Cfg) (w : ℕ → α) (tf : FrameTransform α) (str : ℕ → ℕ → α)
variable (nChIn nChOut maxCh B : ℕ)

/-- Multi-call soundness: starting from any invariant state, running a
list of calls whose blocks spell out the stream produces exactly the
specified output stream, block by block, and preserves the invariant. -/
theorem runCalls_spec (inBlkCh outBlkCh : ℕ)
    (hmax : maxCh = max nChIn nChOut)
    (hInCh : nChIn ≤ inBlkCh) (hOutCh : nChOut ≤ outBlkCh) :
    ∀ (calls : List (ℕ × (ℕ → ℕ → α))) (T : ℕ) (s : EngineState α),
    Inv c w tf str nChIn nChOut maxCh B T s →
    (∀ p ∈ calls, p.1 ≤ B) →
    CallsMatch nChIn str T calls →
    Inv c w tf str nChIn nChOut maxCh B (T + chunksLen calls)
      (runCalls c w tf inBlkCh outBlkCh s calls).1 ∧
    OutsMatch nChOut
      (specOutFinal w tf str nChIn maxCh c.fftSize c.hopSize) T
      (runCalls c w tf inBlkCh outBlkCh s calls).2 := by
  intro calls
  induction calls with
  | nil =>
    intro T s hinv hall hmatch
    refine ⟨?_, trivial⟩
    simpa [chunksLen, runCalls] using hinv
  | cons p rest ih =>
    intro T s hinv hall hmatch
    obtain ⟨L, blk⟩ := p
    obtain ⟨hhead, htail⟩ := hmatch
    have hLB : L ≤ B := hall (L, blk) (List.mem_cons_self _ _)
    obtain ⟨hinv2, hout⟩ := process_spec c w tf str nChIn nChOut maxCh B T L
      s blk inBlkCh outBlkCh hmax hInCh hOutCh hLB hinv hhead
    obtain ⟨hinv3, houts⟩ := ih (T + L)
      (process c w tf s blk L inBlkCh outBlkCh).1 hinv2
      (fun q hq => hall q (List.mem_cons_of_mem _ hq)) htail
    constructor
    · show Inv c w tf str nChIn nChOut maxCh B _ (runCalls c w tf inBlkCh
        outBlkCh (process c w tf s blk L inBlkCh outBlkCh).1 rest).1
      have harith : T + chunksLen ((L, blk) :: rest) =
          (T + L) + chunksLen rest := by
        simp [chunksLen]
        omega
      rw [harith]
      exact hinv3
    · exact ⟨hout, houts⟩

/-- The state produced by `prepare` satisfies the invariant at stream
position 0 (for any reference stream). -/
theorem prepare_inv (hmax : maxCh = max nChIn nChOut) :
    Inv c w tf str nChIn nChOut maxCh B 0
      (prepare c B nChIn nChOut : EngineState α) := by
  have hN1 : 0 < c.fftSize := c.fftSize_pos
  have hc0 : carryCount c.fftSize c.hopSize 0 = 0 := by
    rw [carryCount_of_lt c.fftSize c.hopSize 0 hN1]
  have hF0 : framesTotal c.fftSize c.hopSize 0 = 0 :=
    (framesTotal_zero_iff _ _ _ hN1).2 hN1
  constructor
  · show (0 : ℤ) = _
    rw [hc0]
    rfl
  · constructor
    · rfl
    · rfl
    · rfl
    · show ((1 + (B - 1) / c.hopSize) * c.hopSize +
        (c.fftSize - c.hopSize)) + B - 1 = _
      rfl
    · intro ch hch i hi
      rw [hc0] at hi
      omega
    · show (c.fftSize : ℤ) - 1 = _
      rw [hc0]
      push_cast
      ring
    · show (fun _ _ => (0 : α)) = _
      rw [hF0]
      rfl
    · intro ch hch i hi
      rw [hF0]
      show (0 : α) = _
      simp [specOut]
    · intro h0 ch hch i
      rfl

end Run

/-- Every call list matches the stream obtained by concatenating its own
blocks. -/
theorem callsMatch_chunksStream (n : ℕ) :
    ∀ (calls : List (ℕ × (ℕ → ℕ → α))) (T : ℕ) (str0 : ℕ → ℕ → α),
    (∀ ch p, str0 ch (T + p) = chunksStream calls ch p) →
    CallsMatch n str0 T calls := by
  intro calls
  induction calls with
  | nil => intro T str0 h; trivial
  | cons p rest ih =>
    obtain ⟨L, blk⟩ := p
    intro T str0 h
    refine ⟨?_, ?_⟩
    · intro ch hch q hq
      rw [h ch q]
      show blk ch q = if q < L then blk ch q else chunksStream rest ch (q - L)
      rw [if_pos hq]
    · refine ih (T + L) str0 ?_
      intro ch p
      rw [Nat.add_assoc, h ch (L + p)]
      show (if L + p < L then blk ch (L + p) else chunksStream rest ch (L + p - L))
        = chunksStream rest ch p
      rw [if_neg (by omega)]
      congr 1
      omega

/-- Flattening the produced output blocks gives the specified output
stream truncated to the emitted length. -/
theorem outsMatch_flatten (nOut : ℕ) (g : ℕ → ℕ → α) :
    ∀ (outs : List (ℕ × (ℕ → ℕ → α))) (T : ℕ),
    OutsMatch nOut g T outs →
    ∀ ch p, chunksStream outs ch p =
      if ch < nOut ∧ p < chunksLen outs then g ch (T + p) else 0 := by
  intro outs
  induction outs with
  | nil =>
    intro T h ch p
    show (0 : α) = _
    rw [if_neg (by simp [chunksLen])]
  | cons q rest ih =>
    obtain ⟨L, blk⟩ := q
    intro T h ch p
    obtain ⟨hhead, htail⟩ := h
    have hlen : chunksLen ((L, blk) :: rest) = L + chunksLen rest := by
      simp [chunksLen]
    show (if p < L then blk ch p else chunksStream rest ch (p - L)) = _
    rcases Nat.lt_or_ge p L with hp | hp
    · rw [if_pos hp, hhead ch p]
      by_cases hc : ch < nOut
      · rw [if_pos ⟨hc, hp⟩, if_pos ⟨hc, by omega⟩]
      · rw [if_neg (by tauto), if_neg (by tauto)]
    · rw [if_neg (by omega), ih (T + L) htail ch (p - L)]
      by_cases hc : ch < nOut ∧ p - L < chunksLen rest
      · rw [if_pos hc, if_pos ⟨hc.1, by omega⟩]
        congr 1
        omega
      · rw [if_neg hc, if_neg (by rw [hlen]; intro hcon; exact hc ⟨hcon.1, by omega⟩)]

/-- The output list of `runCalls` carries exactly the input lengths. -/
theorem runCalls_lengths (c : Cfg) (w : ℕ → α) (tf : FrameTransform α)
    (inBlkCh outBlkCh : ℕ) :
    ∀ (calls : List (ℕ × (ℕ → ℕ → α))) (s : EngineState α),
    (runCalls c w tf inBlkCh outBlkCh s calls).2.map Prod.fst =
      calls.map Prod.fst := by
  intro calls
  induction calls with
  | nil => intro s; rfl
  | cons p rest ih =>
    intro s
    obtain ⟨L, blk⟩ := p
    simp only [runCalls, List.map_cons]
    rw [ih]

/-- The specified frame pipeline only reads the stream on channels below
`numChIn`, so two streams agreeing there give the same frames. -/
theorem specFft_congr (w : ℕ → α) (tf : FrameTransform α)
    (str1 str2 : ℕ → ℕ → α) (numChIn maxCh N R : ℕ)
    (h : ∀ ch < numChIn, ∀ p, str1 ch p = str2 ch p) :
    ∀ k, specFft w tf str1 numChIn maxCh N R k =
      specFft w tf str2 numChIn maxCh N R k := by
  intro k
  induction k with
  | zero => rfl
  | succ k ih =>
    have harg : updBelow numChIn (specFft w tf str1 numChIn maxCh N R k)
        (fun ch i => if i < N then str1 ch (k * R + i) * w i
          else specFft w tf str1 numChIn maxCh N R k ch i) =
        updBelow numChIn (specFft w tf str2 numChIn maxCh N R k)
          (fun ch i => if i < N then str2 ch (k * R + i) * w i
            else specFft w tf str2 numChIn maxCh N R k ch i) := by
      funext ch i
      rw [updBelow_app, updBelow_app, ih]
      by_cases hch : ch < numChIn
      · rw [if_pos hch, if_pos hch]
        by_cases hi : i < N
        · rw [if_pos hi, if_pos hi, h ch hch]
        · rw [if_neg hi, if_neg hi]
      · rw [if_neg hch, if_neg hch]
    show tf maxCh _ = tf maxCh _
    rw [harg]

/-- Consequently the specified output stream agrees as well. -/
theorem specOutFinal_congr (w : ℕ → α) (tf : FrameTransform α)
    (str1 str2 : ℕ → ℕ → α) (numChIn maxCh N R : ℕ)
    (h : ∀ ch < numChIn, ∀ p, str1 ch p = str2 ch p) :
    ∀ ch p, specOutFinal w tf str1 numChIn maxCh N R ch p =
      specOutFinal w tf str2 numChIn maxCh N R ch p := by
  intro ch p
  unfold specOutFinal specOut specContrib
  refine Finset.sum_congr rfl ?_
  intro k _
  rw [specFft_congr w tf str1 str2 numChIn maxCh N R h (k + 1)]

theorem callsMatch_append (n : ℕ) (str : ℕ → ℕ → α) :
    ∀ (xs ys : List (ℕ × (ℕ → ℕ → α))) (T : ℕ),
    CallsMatch n str T (xs ++ ys) →
    CallsMatch n str T xs ∧ CallsMatch n str (T + chunksLen xs) ys := by
  intro xs
  induction xs with
  | nil =>
    intro ys T h
    exact ⟨trivial, by simpa [chunksLen] using h⟩
  | cons p rest ih =>
    obtain ⟨L, blk⟩ := p
    intro ys T h
    obtain ⟨hhead, htail⟩ := h
    obtain ⟨h1, h2⟩ := ih ys (T + L) htail
    refine ⟨⟨hhead, h1⟩, ?_⟩
    have : T + chunksLen ((L, blk) :: rest) = T + L + chunksLen rest := by
      simp [chunksLen]; omega
    rw [this]
    exact h2

/-- The output block of a `process` call carries no samples at or beyond
index `L`: exactly `L` samples are produced. -/
theorem process_out_zero_ge (c : Cfg) (w : ℕ → α) (tf : FrameTransform α)
    (s : EngineState α) (input : ℕ → ℕ → α) (L inBlkCh outBlkCh ch i : ℕ)
    (hi : L ≤ i) :
    (process c w tf s input L inBlkCh outBlkCh).2 ch i = 0 := by
  show (if ch < min outBlkCh s.nChOut ∧ i < L then _ else 0) = 0
  rw [if_neg (by omega)]

/-- Every output block in a run is zero at or beyond its own length. -/
theorem runCalls_out_zero_ge (c : Cfg) (w : ℕ → α) (tf : FrameTransform α)
    (inBlkCh outBlkCh : ℕ) :
    ∀ (calls : List (ℕ × (ℕ → ℕ → α))) (s : EngineState α),
    ∀ pr ∈ (runCalls c w tf inBlkCh outBlkCh s calls).2,
    ∀ ch i, pr.1 ≤ i → pr.2 ch i = 0 := by
  intro calls
  induction calls with
  | nil => intro s pr hpr; cases hpr
  | cons p rest ih =>
    obtain ⟨L, blk⟩ := p
    intro s pr hpr ch i hi
    simp only [runCalls] at hpr
    rcases List.mem_cons.1 hpr with heq | hmem
    · subst heq
      exact process_out_zero_ge c w tf s blk L inBlkCh outBlkCh ch i hi
    · exact ih _ pr hmem ch i hi

/-!  Claim theorems. -/

/-- C1.  Sample conservation: over any sequence of `process` calls on a
prepared engine with block lengths at most the prepared `maximumBlockSize`,
each call emits a block of exactly its input length (and nothing beyond
it), so the total number of emitted output samples equals the total number
of input samples fed. -/
theorem c1_sample_conservation (c : Cfg) (w : ℕ → α) (tf : FrameTransform α)
    (maximumBlockSize nChIn nChOut inBlkCh outBlkCh : ℕ)
    (calls : List (ℕ × (ℕ → ℕ → α)))
    (hall : ∀ p ∈ calls, p.1 ≤ maximumBlockSize) :
    ((runCalls c w tf inBlkCh outBlkCh
        (prepare c maximumBlockSize nChIn nChOut) calls).2.map Prod.fst =
      calls.map Prod.fst) ∧
    chunksLen (runCalls c w tf inBlkCh outBlkCh
        (prepare c maximumBlockSize nChIn nChOut) calls).2 =
      chunksLen calls ∧
    (∀ pr ∈ (runCalls c w tf inBlkCh outBlkCh
        (prepare c maximumBlockSize nChIn nChOut) calls).2,
      ∀ ch i, pr.1 ≤ i → pr.2 ch i = 0) := by
  refine ⟨runCalls_lengths c w tf inBlkCh outBlkCh calls _, ?_,
    runCalls_out_zero_ge c w tf inBlkCh outBlkCh calls _⟩
  unfold chunksLen
  rw [runCalls_lengths c w tf inBlkCh outBlkCh calls _]

/-- C8.  Carry-over bound: after any sequence of `process` calls on a
prepared engine (each block at most `maximumBlockSize` samples, block
channel counts at least the prepared ones), the carry-over counter
satisfies `0 ≤ notYetUsedAudioDataCount ≤ fftSize - 1`, so the unconsumed
samples always fit the `fftSize - 1` slots allocated by `prepare`. -/
theorem c8_carry_bound (c : Cfg) (w : ℕ → α) (tf : FrameTransform α)
    (maximumBlockSize nChIn nChOut inBlkCh outBlkCh : ℕ)
    (calls : List (ℕ × (ℕ → ℕ → α)))
    (hin : nChIn ≤ inBlkCh) (hout : nChOut ≤ outBlkCh)
    (hall : ∀ p ∈ calls, p.1 ≤ maximumBlockSize) :
    0 ≤ (runCalls c w tf inBlkCh outBlkCh
        (prepare c maximumBlockSize nChIn nChOut) calls).1.notYetUsedAudioDataCount ∧
    (runCalls c w tf inBlkCh outBlkCh
        (prepare c maximumBlockSize nChIn nChOut) calls).1.notYetUsedAudioDataCount ≤
      (c.fftSize : ℤ) - 1 := by
  have hmatch := callsMatch_chunksStream (α := α) nChIn calls 0
    (chunksStream calls) (by intro ch p; rw [Nat.zero_add])
  have hinv0 := prepare_inv c w tf (chunksStream calls) nChIn nChOut
    (max nChIn nChOut) maximumBlockSize rfl
  obtain ⟨hinv, houts⟩ := runCalls_spec c w tf (chunksStream calls)
    nChIn nChOut (max nChIn nChOut) maximumBlockSize inBlkCh outBlkCh rfl
    hin hout calls 0 (prepare c maximumBlockSize nChIn nChOut) hinv0
    hall hmatch
  rw [hinv.icount]
  have hb := carryCount_le c.fftSize c.hopSize (0 + chunksLen calls)
    c.hopSize_pos c.hopSize_le_fftSize c.fftSize_pos
  have hN1 : 0 < c.fftSize := c.fftSize_pos
  constructor
  · positivity
  · push_cast
    omega

/-- C4.  Block-size independence: feeding the same input stream through a
prepared engine in two different chunkings (all blocks at most the
prepared `maximumBlockSize`, same total length) produces the identical
output stream sample-for-sample. -/
theorem c4_chunking_independence (c : Cfg) (w : ℕ → α)
    (tf : FrameTransform α)
    (maximumBlockSize nChIn nChOut inBlkCh outBlkCh : ℕ)
    (calls1 calls2 : List (ℕ × (ℕ → ℕ → α)))
    (hin : nChIn ≤ inBlkCh) (hout : nChOut ≤ outBlkCh)
    (hall1 : ∀ p ∈ calls1, p.1 ≤ maximumBlockSize)
    (hall2 : ∀ p ∈ calls2, p.1 ≤ maximumBlockSize)
    (hlen : chunksLen calls1 = chunksLen calls2)
    (hsame : ∀ ch < nChIn, ∀ p,
      chunksStream calls1 ch p = chunksStream calls2 ch p) :
    ∀ ch p,
      chunksStream (runCalls c w tf inBlkCh outBlkCh
        (prepare c maximumBlockSize nChIn nChOut) calls1).2 ch p =
      chunksStream (runCalls c w tf inBlkCh outBlkCh
        (prepare c maximumBlockSize nChIn nChOut) calls2).2 ch p := by
  intro ch p
  have hmatch1 := callsMatch_chunksStream (α := α) nChIn calls1 0
    (chunksStream calls1) (by intro ch p; rw [Nat.zero_add])
  have hmatch2 := callsMatch_chunksStream (α := α) nChIn calls2 0
    (chunksStream calls2) (by intro ch p; rw [Nat.zero_add])
  obtain ⟨hinv1, houts1⟩ := runCalls_spec c w tf (chunksStream calls1)
    nChIn nChOut (max nChIn nChOut) maximumBlockSize inBlkCh outBlkCh rfl
    hin hout calls1 0 (prepare c maximumBlockSize nChIn nChOut)
    (prepare_inv c w tf (chunksStream calls1) nChIn nChOut
      (max nChIn nChOut) maximumBlockSize rfl) hall1 hmatch1
  obtain ⟨hinv2, houts2⟩ := runCalls_spec c w tf (chunksStream calls2)
    nChIn nChOut (max nChIn nChOut) maximumBlockSize inBlkCh outBlkCh rfl
    hin hout calls2 0 (prepare c maximumBlockSize nChIn nChOut)
    (prepare_inv c w tf (chunksStream calls2) nChIn nChOut
      (max nChIn nChOut) maximumBlockSize rfl) hall2 hmatch2
  rw [outsMatch_flatten nChOut _ _ 0 houts1 ch p,
    outsMatch_flatten nChOut _ _ 0 houts2 ch p]
  have hl1 : chunksLen (runCalls c w tf inBlkCh outBlkCh
      (prepare c maximumBlockSize nChIn nChOut) calls1).2 =
      chunksLen calls1 := by
    unfold chunksLen
    rw [runCalls_lengths]
  have hl2 : chunksLen (runCalls c w tf inBlkCh outBlkCh
      (prepare c maximumBlockSize nChIn nChOut) calls2).2 =
      chunksLen calls2 := by
    unfold chunksLen
    rw [runCalls_lengths]
  rw [hl1, hl2, ← hlen]
  by_cases hc : ch < nChOut ∧ p < chunksLen calls1
  · rw [if_pos hc, if_pos hc]
    exact specOutFinal_congr w tf _ _ nChIn (max nChIn nChOut)
      c.fftSize c.hopSize hsame ch (0 + p)
  · rw [if_neg hc, if_neg hc]

/-- C5.  Clamp safety: in any `process` call of `L ≤ maximumBlockSize`
samples on a prepared engine, (i) the clamped output-buffer left shift
never reads past the allocated capacity, for any state whatsoever;
(ii) whenever the clamp fires on the state reached after this call's
gather loops, the output buffer still holds only zeros, so nothing real
is discarded; and (iii) the frame write-backs of the call stay inside the
allocation: the output offset is nonnegative at the call start, and once
any frame exists the final write-back ends at most at the capacity. -/
theorem c5_clamp_safety (c : Cfg) (w : ℕ → α) (tf : FrameTransform α)
    (maximumBlockSize nChIn nChOut inBlkCh outBlkCh L : ℕ)
    (blk : ℕ → ℕ → α)
    (calls : List (ℕ × (ℕ → ℕ → α)))
    (hin : nChIn ≤ inBlkCh) (hout : nChOut ≤ outBlkCh)
    (hall : ∀ p ∈ calls, p.1 ≤ maximumBlockSize)
    (hL : L ≤ maximumBlockSize) :
    (∀ (s : EngineState α) (M : ℕ),
      (M : ℤ) + shiftLClamped c s M ≤ (s.outputBufferLen : ℤ)) ∧
    (0 < tooMuchOf c
        (carryPhase c w tf nChIn (max nChIn nChOut) blk L
          (runCalls c w tf inBlkCh outBlkCh
            (prepare c maximumBlockSize nChIn nChOut) calls).1) L →
      ∀ ch < nChOut, ∀ i,
        (carryPhase c w tf nChIn (max nChIn nChOut) blk L
          (runCalls c w tf inBlkCh outBlkCh
            (prepare c maximumBlockSize nChIn nChOut) calls).1).outputBuffer
          ch i = 0) ∧
    0 ≤ (runCalls c w tf inBlkCh outBlkCh
        (prepare c maximumBlockSize nChIn nChOut) calls).1.outputOffset ∧
    (1 ≤ framesTotal c.fftSize c.hopSize (chunksLen calls + L) →
      (carryPhase c w tf nChIn (max nChIn nChOut) blk L
        (runCalls c w tf inBlkCh outBlkCh
          (prepare c maximumBlockSize nChIn nChOut) calls).1).outputOffset +
        ((c.fftSize : ℤ) - (c.hopSize : ℤ)) ≤
      ((carryPhase c w tf nChIn (max nChIn nChOut) blk L
        (runCalls c w tf inBlkCh outBlkCh
          (prepare c maximumBlockSize nChIn nChOut) calls).1).outputBufferLen
        : ℤ)) := by
  have hR1 : 0 < c.hopSize := c.hopSize_pos
  have hRN : c.hopSize ≤ c.fftSize := c.hopSize_le_fftSize
  have hN1 : 0 < c.fftSize := c.fftSize_pos
  -- (i) is a property of the clamp itself
  have hgen : ∀ (s : EngineState α) (M : ℕ),
      (M : ℤ) + shiftLClamped c s M ≤ (s.outputBufferLen : ℤ) := by
    intro s M
    unfold shiftLClamped tooMuchOf
    split <;> omega
  -- set up the invariant run over the extended stream
  have hm := callsMatch_chunksStream (α := α) nChIn (calls ++ [(L, blk)]) 0
    (chunksStream (calls ++ [(L, blk)])) (by intro ch p; rw [Nat.zero_add])
  obtain ⟨hmc, hmb⟩ := callsMatch_append nChIn _ calls [(L, blk)] 0 hm
  obtain ⟨hinv, _⟩ := runCalls_spec c w tf (chunksStream (calls ++ [(L, blk)]))
    nChIn nChOut (max nChIn nChOut) maximumBlockSize inBlkCh outBlkCh rfl
    hin hout calls 0 (prepare c maximumBlockSize nChIn nChOut)
    (prepare_inv c w tf _ nChIn nChOut (max nChIn nChOut)
      maximumBlockSize rfl) hall hmc
  have hInput : ∀ ch < nChIn, ∀ q < L,
      blk ch q = chunksStream (calls ++ [(L, blk)]) ch
        (0 + chunksLen calls + q) := hmb.1
  have hpc := carryPhase_spec c w tf (chunksStream (calls ++ [(L, blk)]))
    nChIn nChOut (max nChIn nChOut) maximumBlockSize (0 + chunksLen calls)
    (carryCount c.fftSize c.hopSize (0 + chunksLen calls))
    (framesTotal c.fftSize c.hopSize (0 + chunksLen calls))
    blk L (runCalls c w tf inBlkCh outBlkCh
      (prepare c maximumBlockSize nChIn nChOut) calls).1
    (carryCount c.fftSize c.hopSize (0 + chunksLen calls + L))
    (framesTotal c.fftSize c.hopSize (0 + chunksLen calls + L))
    rfl rfl rfl rfl hinv.icount hinv.imid hInput
  have hc1le : carryCount c.fftSize c.hopSize (0 + chunksLen calls + L) ≤
      c.fftSize - 1 := carryCount_le _ _ _ hR1 hRN hN1
  have hcap := capacity_ge c.fftSize c.hopSize maximumBlockSize hR1 hRN
  refine ⟨hgen, ?_, ?_, ?_⟩
  · -- (ii) the clamp can only fire before any frame exists
    intro hclamp ch hch i
    have hF10 : framesTotal c.fftSize c.hopSize (0 + chunksLen calls + L)
        = 0 := by
      by_contra hF
      have hTL : c.fftSize ≤ 0 + chunksLen calls + L := by
        rcases Nat.lt_or_ge (0 + chunksLen calls + L) c.fftSize with hlt | hge
        · exact absurd ((framesTotal_zero_iff _ _ _ hN1).2 hlt) hF
        · exact hge
      have hge := carryCount_ge c.fftSize c.hopSize _ hR1 hRN hTL
      have hreq : shiftLReq c
          (carryPhase c w tf nChIn (max nChIn nChOut) blk L
            (runCalls c w tf inBlkCh outBlkCh
              (prepare c maximumBlockSize nChIn nChOut) calls).1) L =
          2 * (c.fftSize : ℤ) - (c.hopSize : ℤ) - 1 -
            (carryCount c.fftSize c.hopSize (0 + chunksLen calls + L) : ℤ) := by
        unfold shiftLReq
        rw [hpc.pOff]
        push_cast
        omega
      unfold tooMuchOf at hclamp
      rw [hreq, hpc.pLen] at hclamp
      push_cast at hclamp
      omega
    exact hpc.pZero hF10 ch hch i
  · -- (iii) start offset nonnegative
    rw [hinv.imid.hOff]
    have hle := carryCount_le c.fftSize c.hopSize (0 + chunksLen calls)
      hR1 hRN hN1
    push_cast
    omega
  · -- (iii) final write-back within capacity
    intro hF
    have hTL : c.fftSize ≤ 0 + chunksLen calls + L := by
      rcases Nat.lt_or_ge (0 + chunksLen calls + L) c.fftSize with hlt | hge
      · rw [(framesTotal_zero_iff _ _ _ hN1).2 (by omega)] at hF
        omega
      · exact hge
    have hge := carryCount_ge c.fftSize c.hopSize _ hR1 hRN hTL
    rw [hpc.pOff, hpc.pLen]
    push_cast
    omega

/-!  The default window of `createWindow`, over `ℝ`. -/

/-- JUCE symmetric Hann window of length `size` with `normalise = false`:
`WindowingFunction<float>::fillWindowingTables (..., hann, false)` computes
`0.5 - 0.5 * cos (2 π i / (size - 1))`. -/
noncomputable def juceHann (size i : ℕ) : ℝ :=
  1 / 2 - 1 / 2 * Real.cos (2 * Real.pi * (i : ℝ) / ((size : ℝ) - 1))

/-- Integer quotient `fftSize / hopSize / 2` from `createWindow`. -/
def compensateDenom (c : Cfg) : ℕ := c.fftSize / c.hopSize / 2

/-- Window installed by the default `createWindow`: the JUCE Hann window
scaled by `hopSizeCompensateFactor = 1.0f / (fftSize / hopSize / 2)`. -/
noncomputable def createWindow (c : Cfg) (i : ℕ) : ℝ :=
  juceHann c.fftSize i * (1 / (compensateDenom c : ℝ))

/-- Identity frame transform: the default (non-overridden)
`processFrameInBuffer` leaves the frame buffer untouched. -/
def idTransform (α : Type) : FrameTransform α := fun _ b => b

/-- Concrete configuration of the spec scenario: `fftSizeExponent = 4`
(frame 16) and `hopDivider = 2` (hop 4). -/
def cfg42 : Cfg := ⟨4, 2, by norm_num, by norm_num⟩

/-- Mono run of the spec scenario: a prepared engine processes one call of
64 samples of value 1 through the identity transform with the default
window; `c2Out` is the caller's output block. -/
noncomputable def c2Out : ℕ → ℕ → ℝ :=
  (process cfg42 (createWindow cfg42) (idTransform ℝ)
    (prepare cfg42 64 1 1) (fun _ _ => 1) 64 1 1).2

theorem c2Out_eq (ch i : ℕ) :
    c2Out ch i = if ch < 1 ∧ i < 64 then
      specOutFinal (createWindow cfg42) (idTransform ℝ) (fun _ _ => 1) 1 1
        cfg42.fftSize cfg42.hopSize ch (0 + i)
    else 0 :=
  (process_spec cfg42 (createWindow cfg42) (idTransform ℝ) (fun _ _ => 1)
    1 1 1 64 0 64 (prepare cfg42 64 1 1) (fun _ _ => 1) 1 1
    rfl (le_refl 1) (le_refl 1) (le_refl 64)
    (prepare_inv cfg42 (createWindow cfg42) (idTransform ℝ) (fun _ _ => 1)
      1 1 1 64 rfl)
    (fun _ _ _ _ => rfl)).2 ch i

theorem c2_specFft_val (k x : ℕ) (hx : x < 16) :
    specFft (createWindow cfg42) (idTransform ℝ) (fun _ _ => 1) 1 1
      cfg42.fftSize cfg42.hopSize (k + 1) 0 x = createWindow cfg42 x := by
  rw [show cfg42.fftSize = 16 from rfl, show cfg42.hopSize = 4 from rfl]
  simp only [specFft, idTransform, updBelow_app]
  rw [if_pos (by norm_num : (0 : ℕ) < 1), if_pos hx, one_mul]

/-- C2, counterexample.  In the spec scenario the 13th output sample
(index 12) is exactly 0, not approximately 1: the engine's lead-in is
`fftSize - 1 = 15` samples, not `fftSize - hopSize = 12`. -/
theorem c2_latency_counterexample : ¬ |c2Out 0 12 - 1| ≤ 1 / 10000 := by
  have h12 : c2Out 0 12 = 0 := by
    rw [c2Out_eq 0 12, if_pos ⟨one_pos, by norm_num⟩]
    unfold specOutFinal
    have hz : framesTotal cfg42.fftSize cfg42.hopSize (0 + 12 + 1) = 0 := by
      decide
    rw [hz]
    simp [specOut]
  rw [h12]
  norm_num

/-- C2, amended.  With `fftSizeExponent = 4`, `hopDivider = 2`, identity
transform and one mono call of 64 ones, the first 16 output samples are
exactly 0 (the output offset starts at `fftSize - 1 = 15` and the first
window coefficient is 0), and output sample 16 equals the second window
coefficient `createWindow cfg42 1`, which is not within `1e-4` of 1. -/
theorem c2_latency_amended :
    (∀ n < 16, c2Out 0 n = 0) ∧
    c2Out 0 16 = createWindow cfg42 1 ∧
    ¬ |c2Out 0 16 - 1| ≤ 1 / 10000 := by
  have hw16 : ∀ n, n < 64 → c2Out 0 n =
      specOutFinal (createWindow cfg42) (idTransform ℝ) (fun _ _ => 1) 1 1
        cfg42.fftSize cfg42.hopSize 0 n := by
    intro n hn
    rw [c2Out_eq 0 n, if_pos ⟨one_pos, hn⟩, Nat.zero_add]
  have h16 : c2Out 0 16 = createWindow cfg42 1 := by
    rw [hw16 16 (by norm_num)]
    unfold specOutFinal
    have hf : framesTotal cfg42.fftSize cfg42.hopSize (16 + 1) = 1 := by
      decide
    rw [hf]
    unfold specOut
    rw [Finset.sum_range_one]
    unfold specContrib
    rw [if_pos (by constructor <;> decide)]
    have hidx : 16 - (cfg42.fftSize - 1 + 0 * cfg42.hopSize) = 1 := by decide
    rw [hidx]
    exact c2_specFft_val 0 1 (by norm_num)
  refine ⟨?_, h16, ?_⟩
  · intro n hn
    rcases Nat.lt_or_ge n 15 with hn15 | hn15
    · rw [hw16 n (by omega)]
      unfold specOutFinal
      have hz : framesTotal cfg42.fftSize cfg42.hopSize (n + 1) = 0 := by
        refine (framesTotal_zero_iff _ _ _ (by decide)).2 ?_
        show n + 1 < 16
        omega
      rw [hz]
      simp [specOut]
    · have hn' : n = 15 := by omega
      subst hn'
      rw [hw16 15 (by norm_num)]
      unfold specOutFinal
      have hf : framesTotal cfg42.fftSize cfg42.hopSize (15 + 1) = 1 := by
        decide
      rw [hf]
      unfold specOut
      rw [Finset.sum_range_one]
      unfold specContrib
      rw [if_pos (by constructor <;> decide)]
      have hidx : 15 - (cfg42.fftSize - 1 + 0 * cfg42.hopSize) = 0 := by decide
      rw [hidx, c2_specFft_val 0 0 (by norm_num)]
      unfold createWindow juceHann
      norm_num [Real.cos_zero]
  · rw [h16]
    have hden : compensateDenom cfg42 = 2 := by decide
    have hval : createWindow cfg42 1 =
        (1 / 2 - 1 / 2 * Real.cos
          (2 * Real.pi * ((1 : ℕ) : ℝ) / (((16 : ℕ) : ℝ) - 1))) *
          (1 / ((2 : ℕ) : ℝ)) := by
      unfold createWindow juceHann
      rw [show cfg42.fftSize = 16 from rfl, hden]
    rw [hval]
    have hcosge := Real.neg_one_le_cos
      (2 * Real.pi * ((1 : ℕ) : ℝ) / (((16 : ℕ) : ℝ) - 1))
    intro habs
    rw [abs_le] at habs
    have h1 := habs.1
    push_cast at h1 hcosge
    linarith

/-- C7.  Write-back contract: each completed frame is folded into the
output buffer at the current hop offset — the first `fftSize - hopSize`
transformed samples are summed into the existing content, the final
`hopSize` samples overwrite the positions after them — and the hop offset
then advances by `hopSize`; at the end of each `process` call of `L`
samples the hop offset decreases by `L` relative to the state after the
gather loops. -/
theorem c7_writeback_contract (c : Cfg) (w : ℕ → α) (tf : FrameTransform α)
    (s : EngineState α) (input : ℕ → ℕ → α) (L inBlkCh outBlkCh : ℕ) :
    (∀ ch < s.nChOut, ∀ i : ℕ,
      (s.outputOffset ≤ (i : ℤ) ∧
          (i : ℤ) < s.outputOffset + ((c.fftSize - c.hopSize : ℕ) : ℤ) →
        (writeBackFrame c s).outputBuffer ch i =
          s.outputBuffer ch i +
            s.fftInOutBuffer ch (i - s.outputOffset.toNat)) ∧
      (s.outputOffset + ((c.fftSize - c.hopSize : ℕ) : ℤ) ≤ (i : ℤ) ∧
          (i : ℤ) < s.outputOffset + (c.fftSize : ℤ) →
        (writeBackFrame c s).outputBuffer ch i =
          s.fftInOutBuffer ch (i - s.outputOffset.toNat))) ∧
    (writeBackFrame c s).outputOffset = s.outputOffset + (c.hopSize : ℤ) ∧
    (process c w tf s input L inBlkCh outBlkCh).1.outputOffset =
      (carryPhase c w tf (min inBlkCh s.nChIn)
          (max (min inBlkCh s.nChIn) (min outBlkCh s.nChOut)) input L
          s).outputOffset - (L : ℤ) := by
  refine ⟨?_, rfl, rfl⟩
  intro ch hch i
  rw [writeBackFrame_outputBuffer c s ch i hch]
  have hsub : (0 : ℤ) ≤ ((c.fftSize - c.hopSize : ℕ) : ℤ) := by positivity
  constructor
  · intro hr
    rw [if_pos hr]
  · intro hr
    rw [if_neg (by omega), if_pos hr]

/-!  Input-channel congruence for C10. -/

theorem loopA_input_congr (c : Cfg) (w : ℕ → α) (tf : FrameTransform α)
    (numChIn maxCh L : ℕ) (in1 in2 : ℕ → ℕ → α)
    (h : ∀ ch < numChIn, ∀ q, in1 ch q = in2 ch q) :
    ∀ (fuel : ℕ) (s : EngineState α) (nyOff : ℕ),
    s.notYetUsedAudioDataCount.toNat ≤ fuel →
    loopA c w tf numChIn maxCh in1 L s nyOff =
      loopA c w tf numChIn maxCh in2 L s nyOff := by
  intro fuel
  induction fuel with
  | zero =>
    intro s nyOff hfuel
    have hR1 : 0 < c.hopSize := c.hopSize_pos
    have hN1 : 0 < c.fftSize := c.fftSize_pos
    have hng : ¬(0 < s.notYetUsedAudioDataCount ∧
        (c.fftSize : ℤ) ≤ s.notYetUsedAudioDataCount + (L : ℤ)) := by omega
    conv_lhs => rw [loopA]
    conv_rhs => rw [loopA]
    simp only [dif_neg hng]
  | succ n ih =>
    intro s nyOff hfuel
    by_cases hg : 0 < s.notYetUsedAudioDataCount ∧
        (c.fftSize : ℤ) ≤ s.notYetUsedAudioDataCount + (L : ℤ)
    · conv_lhs => rw [loopA]
      conv_rhs => rw [loopA]
      simp only [dif_pos hg]
      have hrow : updBelow numChIn s.fftInOutBuffer
          (fun ch => fillFrameRow c.fftSize w (s.notYetUsedAudioData ch)
            (in1 ch) (s.fftInOutBuffer ch) nyOff
            s.notYetUsedAudioDataCount.toNat) =
          updBelow numChIn s.fftInOutBuffer
            (fun ch => fillFrameRow c.fftSize w (s.notYetUsedAudioData ch)
              (in2 ch) (s.fftInOutBuffer ch) nyOff
              s.notYetUsedAudioDataCount.toNat) := by
        funext ch i
        rw [updBelow_app, updBelow_app]
        by_cases hch : ch < numChIn
        · rw [if_pos hch, if_pos hch]
          unfold fillFrameRow
          rw [h ch hch]
        · rw [if_neg hch, if_neg hch]
      have hbody : doFrame c tf numChIn maxCh
          (fun ch => fillFrameRow c.fftSize w (s.notYetUsedAudioData ch)
            (in1 ch) (s.fftInOutBuffer ch) nyOff
            s.notYetUsedAudioDataCount.toNat) s =
          doFrame c tf numChIn maxCh
            (fun ch => fillFrameRow c.fftSize w (s.notYetUsedAudioData ch)
              (in2 ch) (s.fftInOutBuffer ch) nyOff
              s.notYetUsedAudioDataCount.toNat) s := by
        unfold doFrame
        rw [hrow]
      rw [hbody]
      refine ih _ _ ?_
      dsimp only
      rw [doFrame_count]
      have hR1 : 0 < c.hopSize := c.hopSize_pos
      omega
    · conv_lhs => rw [loopA]
      conv_rhs => rw [loopA]
      simp only [dif_neg hg]

theorem loopB_input_congr (c : Cfg) (w : ℕ → α) (tf : FrameTransform α)
    (numChIn maxCh L : ℕ) (in1 in2 : ℕ → ℕ → α)
    (h : ∀ ch < numChIn, ∀ q, in1 ch q = in2 ch q) :
    ∀ (fuel : ℕ) (s : EngineState α) (dataOffset : ℤ),
    ((L : ℤ) - dataOffset).toNat ≤ fuel →
    loopB c w tf numChIn maxCh in1 L s dataOffset =
      loopB c w tf numChIn maxCh in2 L s dataOffset := by
  intro fuel
  induction fuel with
  | zero =>
    intro s dataOffset hfuel
    have hN1 : 0 < c.fftSize := c.fftSize_pos
    have hng : ¬((c.fftSize : ℤ) ≤ (L : ℤ) - dataOffset) := by omega
    conv_lhs => rw [loopB]
    conv_rhs => rw [loopB]
    simp only [dif_neg hng]
  | succ n ih =>
    intro s dataOffset hfuel
    by_cases hg : (c.fftSize : ℤ) ≤ (L : ℤ) - dataOffset
    · conv_lhs => rw [loopB]
      conv_rhs => rw [loopB]
      simp only [dif_pos hg]
      have hbody : doFrame c tf numChIn maxCh
          (fun ch => fillFrameRow c.fftSize w (fun _ => 0)
            (fun i => in1 ch (dataOffset.toNat + i)) (s.fftInOutBuffer ch) 0 0)
            s =
          doFrame c tf numChIn maxCh
            (fun ch => fillFrameRow c.fftSize w (fun _ => 0)
              (fun i => in2 ch (dataOffset.toNat + i)) (s.fftInOutBuffer ch)
              0 0) s := by
        unfold doFrame
        have hrow : updBelow numChIn s.fftInOutBuffer
            (fun ch => fillFrameRow c.fftSize w (fun _ => 0)
              (fun i => in1 ch (dataOffset.toNat + i)) (s.fftInOutBuffer ch)
              0 0) =
            updBelow numChIn s.fftInOutBuffer
              (fun ch => fillFrameRow c.fftSize w (fun _ => 0)
                (fun i => in2 ch (dataOffset.toNat + i)) (s.fftInOutBuffer ch)
                0 0) := by
          funext ch i
          rw [updBelow_app, updBelow_app]
          by_cases hch : ch < numChIn
          · rw [if_pos hch, if_pos hch]
            unfold fillFrameRow
            simp only [h ch hch]
          · rw [if_neg hch, if_neg hch]
        rw [hrow]
      rw [hbody]
      refine ih _ _ ?_
      have hR1 : 0 < c.hopSize := c.hopSize_pos
      have hRN : c.hopSize ≤ c.fftSize := c.hopSize_le_fftSize
      omega
    · conv_lhs => rw [loopB]
      conv_rhs => rw [loopB]
      simp only [dif_neg hg]

theorem carryPhase_input_congr (c : Cfg) (w : ℕ → α) (tf : FrameTransform α)
    (numChIn maxCh L : ℕ) (in1 in2 : ℕ → ℕ → α) (s : EngineState α)
    (h : ∀ ch < numChIn, ∀ q, in1 ch q = in2 ch q) :
    carryPhase c w tf numChIn maxCh in1 L s =
      carryPhase c w tf numChIn maxCh in2 L s := by
  have hA := loopA_input_congr c w tf numChIn maxCh L in1 in2 h
    s.notYetUsedAudioDataCount.toNat s 0 le_rfl
  unfold carryPhase
  rw [hA]
  dsimp only
  set sA := loopA c w tf numChIn maxCh in2 L s 0 with hsA
  by_cases hpos : 0 < sA.notYetUsedAudioDataCount
  · rw [if_pos hpos, if_pos hpos]
    have hcarry : updBelow numChIn sA.notYetUsedAudioData
        (fun ch i =>
          if i < sA.notYetUsedAudioDataCount.toNat then
            sA.notYetUsedAudioData ch
              ((s.notYetUsedAudioDataCount -
                (sA.notYetUsedAudioDataCount.toNat : ℤ)).toNat + i)
          else if i < sA.notYetUsedAudioDataCount.toNat + L then
            in1 ch (i - sA.notYetUsedAudioDataCount.toNat)
          else sA.notYetUsedAudioData ch i) =
        updBelow numChIn sA.notYetUsedAudioData
          (fun ch i =>
            if i < sA.notYetUsedAudioDataCount.toNat then
              sA.notYetUsedAudioData ch
                ((s.notYetUsedAudioDataCount -
                  (sA.notYetUsedAudioDataCount.toNat : ℤ)).toNat + i)
            else if i < sA.notYetUsedAudioDataCount.toNat + L then
              in2 ch (i - sA.notYetUsedAudioDataCount.toNat)
            else sA.notYetUsedAudioData ch i) := by
      funext ch i
      rw [updBelow_app, updBelow_app]
      by_cases hch : ch < numChIn
      · rw [if_pos hch, if_pos hch]
        rw [show ∀ q, in1 ch q = in2 ch q from h ch hch]
      · rw [if_neg hch, if_neg hch]
    rw [hcarry]
  · rw [if_neg hpos, if_neg hpos]
    have hB := loopB_input_congr c w tf numChIn maxCh L in1 in2 h
      ((L : ℤ) - (- sA.notYetUsedAudioDataCount)).toNat sA
      (- sA.notYetUsedAudioDataCount) le_rfl
    rw [hB]
    set pb := loopB c w tf numChIn maxCh in2 L sA
      (- sA.notYetUsedAudioDataCount) with hpb
    by_cases hrem : 0 < (L : ℤ) - pb.2
    · rw [if_pos hrem, if_pos hrem]
      have hcarry : updBelow numChIn pb.1.notYetUsedAudioData
          (fun ch i =>
            if i < ((L : ℤ) - pb.2).toNat then in1 ch (pb.2.toNat + i)
            else pb.1.notYetUsedAudioData ch i) =
          updBelow numChIn pb.1.notYetUsedAudioData
            (fun ch i =>
              if i < ((L : ℤ) - pb.2).toNat then in2 ch (pb.2.toNat + i)
              else pb.1.notYetUsedAudioData ch i) := by
        funext ch i
        rw [updBelow_app, updBelow_app]
        by_cases hch : ch < numChIn
        · rw [if_pos hch, if_pos hch]
          rw [show ∀ q, in1 ch q = in2 ch q from h ch hch]
        · rw [if_neg hch, if_neg hch]
      rw [hcarry]
    · rw [if_neg hrem, if_neg hrem]

/-- C10.  Channel isolation: input channels at or beyond the effective
input channel count have no effect whatsoever on a `process` call (state
and output blocks are identical when the inputs agree on the channels
below it), and every output-block channel at or beyond the effective
output channel count is zero-filled. -/
theorem c10_channel_isolation (c : Cfg) (w : ℕ → α) (tf : FrameTransform α) :
    (∀ (s : EngineState α) (in1 in2 : ℕ → ℕ → α) (L inBlkCh outBlkCh : ℕ),
      (∀ ch < min inBlkCh s.nChIn, ∀ q, in1 ch q = in2 ch q) →
      process c w tf s in1 L inBlkCh outBlkCh =
        process c w tf s in2 L inBlkCh outBlkCh) ∧
    (∀ (s : EngineState α) (input : ℕ → ℕ → α) (L inBlkCh outBlkCh ch i : ℕ),
      min outBlkCh s.nChOut ≤ ch →
      (process c w tf s input L inBlkCh outBlkCh).2 ch i = 0) := by
  constructor
  · intro s in1 in2 L inBlkCh outBlkCh h
    unfold process
    dsimp only
    rw [carryPhase_input_congr c w tf (min inBlkCh s.nChIn) _ L in1 in2 s h]
  · intro s input L inBlkCh outBlkCh ch i hch
    show (if ch < min outBlkCh s.nChOut ∧ i < L then _ else 0) = 0
    rw [if_neg (by omega)]

/-!  Concrete fixtures for the witness and counterexample theorems: the
smallest admissible configuration (`fftSize = 2`, `hopSize = 1`) over `ℚ`
with an all-ones window, all-ones input blocks and the identity frame
transform. -/

/-- Engine configuration with `fftSizeAsPowerOf2 = 1` and
`hopSizeDividerAsPowerOf2 = 1`: `fftSize = 2`, `hopSize = 1`. -/
def wCfg : Cfg := ⟨1, 1, le_rfl, le_rfl⟩

/-- All-ones input block over `ℚ`. -/
def wOnes : ℕ → ℕ → ℚ := fun _ _ => 1

/-- All-ones analysis window over `ℚ`. -/
def wWin : ℕ → ℚ := fun _ => 1

/-- Identity frame transform over `ℚ`. -/
def wTf : FrameTransform ℚ := fun _ b => b

/-- Witness for C1 at a concrete input: one mono call of 2 all-one
samples on the prepared `fftSize = 2`, `hopSize = 1` engine. -/
theorem c1_sample_conservation_witness :
    ((runCalls wCfg wWin wTf 1 1 (prepare wCfg 2 1 1) [(2, wOnes)]).2.map
        Prod.fst = [(2, wOnes)].map Prod.fst) ∧
    chunksLen (runCalls wCfg wWin wTf 1 1
        (prepare wCfg 2 1 1) [(2, wOnes)]).2 = chunksLen [(2, wOnes)] ∧
    (∀ pr ∈ (runCalls wCfg wWin wTf 1 1
        (prepare wCfg 2 1 1) [(2, wOnes)]).2,
      ∀ ch i, pr.1 ≤ i → pr.2 ch i = 0) :=
  c1_sample_conservation wCfg wWin wTf 2 1 1 1 1 [(2, wOnes)]
    (by intro p hp; rw [List.mem_singleton] at hp; subst hp; exact le_rfl)

/-- Witness for C8 at a concrete input: after one mono call of 2 all-one
samples the carry-over count lies in `[0, fftSize - 1]`. -/
theorem c8_carry_bound_witness :
    0 ≤ (runCalls wCfg wWin wTf 1 1
        (prepare wCfg 2 1 1) [(2, wOnes)]).1.notYetUsedAudioDataCount ∧
    (runCalls wCfg wWin wTf 1 1
        (prepare wCfg 2 1 1) [(2, wOnes)]).1.notYetUsedAudioDataCount ≤
      (wCfg.fftSize : ℤ) - 1 :=
  c8_carry_bound wCfg wWin wTf 2 1 1 1 1 [(2, wOnes)] le_rfl le_rfl
    (by intro p hp; rw [List.mem_singleton] at hp; subst hp; exact le_rfl)

/-- Witness for C4 at a concrete input: one call of 2 samples versus two
calls of 1 sample produce the same first output sample. -/
theorem c4_chunking_independence_witness :
    chunksStream (runCalls wCfg wWin wTf 1 1
        (prepare wCfg 2 1 1) [(2, wOnes)]).2 0 0 =
    chunksStream (runCalls wCfg wWin wTf 1 1
        (prepare wCfg 2 1 1) [(1, wOnes), (1, wOnes)]).2 0 0 :=
  c4_chunking_independence wCfg wWin wTf 2 1 1 1 1
    [(2, wOnes)] [(1, wOnes), (1, wOnes)] le_rfl le_rfl
    (by intro p hp; rw [List.mem_singleton] at hp; subst hp; exact le_rfl)
    (by
      intro p hp
      rcases List.mem_cons.1 hp with h1 | h1
      · subst h1; exact one_le_two
      · rw [List.mem_singleton] at h1; subst h1; exact one_le_two)
    rfl
    (by
      intro ch _ p
      simp only [chunksStream, wOnes]
      split_ifs <;> first | rfl | (exfalso; omega))
    0 0

/-- Witness for C5 at a concrete input: a call of 1 sample after one
prior call of 1 sample on the prepared `maximumBlockSize = 2` engine. -/
theorem c5_clamp_safety_witness :
    (∀ (s : EngineState ℚ) (M : ℕ),
      (M : ℤ) + shiftLClamped wCfg s M ≤ (s.outputBufferLen : ℤ)) ∧
    (0 < tooMuchOf wCfg
        (carryPhase wCfg wWin wTf 1 (max 1 1) wOnes 1
          (runCalls wCfg wWin wTf 1 1
            (prepare wCfg 2 1 1) [(1, wOnes)]).1) 1 →
      ∀ ch < 1, ∀ i,
        (carryPhase wCfg wWin wTf 1 (max 1 1) wOnes 1
          (runCalls wCfg wWin wTf 1 1
            (prepare wCfg 2 1 1) [(1, wOnes)]).1).outputBuffer ch i = 0) ∧
    0 ≤ (runCalls wCfg wWin wTf 1 1
        (prepare wCfg 2 1 1) [(1, wOnes)]).1.outputOffset ∧
    (1 ≤ framesTotal wCfg.fftSize wCfg.hopSize (chunksLen [(1, wOnes)] + 1) →
      (carryPhase wCfg wWin wTf 1 (max 1 1) wOnes 1
        (runCalls wCfg wWin wTf 1 1
          (prepare wCfg 2 1 1) [(1, wOnes)]).1).outputOffset +
        ((wCfg.fftSize : ℤ) - (wCfg.hopSize : ℤ)) ≤
      ((carryPhase wCfg wWin wTf 1 (max 1 1) wOnes 1
        (runCalls wCfg wWin wTf 1 1
          (prepare wCfg 2 1 1) [(1, wOnes)]).1).outputBufferLen : ℤ)) :=
  c5_clamp_safety wCfg wWin wTf 2 1 1 1 1 1 wOnes [(1, wOnes)] le_rfl le_rfl
    (by intro p hp; rw [List.mem_singleton] at hp; subst hp; exact one_le_two)
    one_le_two

/-!  The `reset` member of the template variant
`FftWithHopSizeAndHannWindowProcessor` (file
`Source/fftWithHopSizeAndHannWindowProcessor.h`), in contrast to the
empty `reset` of `OverlappingFFTProcessor`: it zeroes
`notYetUsedAudioDataCount` and touches nothing else. -/

/-- Member function `reset` of `FftWithHopSizeAndHannWindowProcessor`:
`notYetUsedAudioDataCount = 0;`. -/
def resetT (s : EngineState α) : EngineState α :=
  { s with notYetUsedAudioDataCount := 0 }

/-- C6 counterexample: after a mono `process` call of 1 all-one sample on
the prepared `fftSize = 2` engine, one carry-over sample is buffered, and
`OverlappingFFTProcessor::reset` (whose body is empty) leaves the
carry-over count at 1 rather than returning it to zero. -/
theorem c6_reset_counterexample :
    (reset (runCalls wCfg wWin wTf 1 1 (prepare wCfg 1 1 1)
      [(1, wOnes)]).1).notYetUsedAudioDataCount = 1 ∧ (1 : ℤ) ≠ 0 := by
  refine ⟨?_, one_ne_zero⟩
  have hmatch := callsMatch_chunksStream (α := ℚ) 1 [(1, wOnes)] 0
    (chunksStream [(1, wOnes)]) (by intro ch p; rw [Nat.zero_add])
  have hinv0 := prepare_inv wCfg wWin wTf (chunksStream [(1, wOnes)]) 1 1
    (max 1 1) 1 rfl
  obtain ⟨hinv, houts⟩ := runCalls_spec wCfg wWin wTf
    (chunksStream [(1, wOnes)]) 1 1 (max 1 1) 1 1 1 rfl le_rfl le_rfl
    [(1, wOnes)] 0 (prepare wCfg 1 1 1) hinv0
    (by intro p hp; rw [List.mem_singleton] at hp; subst hp; exact le_rfl)
    hmatch
  show (runCalls wCfg wWin wTf 1 1 (prepare wCfg 1 1 1)
    [(1, wOnes)]).1.notYetUsedAudioDataCount = 1
  rw [hinv.icount]
  rfl

/-- C6 as the code has it: `OverlappingFFTProcessor::reset` has an empty
body and changes nothing at all — it does not clear the carry-over
counter; only the template variant `FftWithHopSizeAndHannWindowProcessor`
has a `reset` that zeroes `notYetUsedAudioDataCount` while leaving every
buffer, the allocation size and the output offset untouched. -/
theorem c6_reset_amended :
    (∀ s : EngineState α, reset s = s) ∧
    (∀ s : EngineState α,
      (resetT s).notYetUsedAudioDataCount = 0 ∧
      (resetT s).notYetUsedAudioData = s.notYetUsedAudioData ∧
      (resetT s).outputBuffer = s.outputBuffer ∧
      (resetT s).fftInOutBuffer = s.fftInOutBuffer ∧
      (resetT s).outputBufferLen = s.outputBufferLen ∧
      (resetT s).outputOffset = s.outputOffset) :=
  ⟨fun _ => rfl, fun _ => ⟨rfl, rfl, rfl, rfl, rfl, rfl⟩⟩

/-!  Constant-overlap-add sums of the default window (claim C3). -/

/-- Overlap-add sum of the installed window at steady-state output phase
`i0`: the window taps `i0, i0 + hopSize, …` of the `fftSize / hopSize`
frames that overlap any given output position of that phase. -/
noncomputable def colaSum (c : Cfg) (i0 : ℕ) : ℝ :=
  ∑ r in Finset.range (c.fftSize / c.hopSize),
    createWindow c (i0 + r * c.hopSize)

/-- At the smallest configuration (`fftSize = 2`, `hopSize = 1`) the JUCE
symmetric Hann window is identically zero, so every COLA sum is 0. -/
theorem colaSum_wCfg (i0 : ℕ) (h : i0 < wCfg.hopSize) :
    colaSum wCfg i0 = 0 := by
  have h0 : i0 = 0 := by
    have h1 : wCfg.hopSize = 1 := rfl
    omega
  subst h0
  unfold colaSum
  rw [show wCfg.fftSize / wCfg.hopSize = 2 from rfl]
  rw [Finset.sum_range_succ, Finset.sum_range_one]
  rw [show (0 + 0 * wCfg.hopSize : ℕ) = 0 from rfl,
    show (0 + 1 * wCfg.hopSize : ℕ) = 1 from rfl]
  unfold createWindow juceHann
  rw [show compensateDenom wCfg = 1 from rfl, show wCfg.fftSize = 2 from rfl]
  push_cast
  norm_num [Real.cos_two_pi]

/-- The cosine sum over one full period of the 15 sample points vanishes:
real part of the vanishing sum of the 15th roots of unity. -/
theorem sum_cos_fifteen :
    ∑ i in Finset.range 15, Real.cos (2 * Real.pi * (i : ℝ) / 15) = 0 := by
  set θ : ℝ := 2 * Real.pi / 15 with hθ
  have hz1 : Complex.exp ((θ : ℂ) * Complex.I) ≠ 1 := by
    rw [Ne, Complex.exp_eq_one_iff]
    rintro ⟨n, hn⟩
    have him := congrArg Complex.im hn
    simp [Complex.mul_im] at him
    rw [hθ] at him
    have hπ := Real.pi_pos
    rcases le_or_lt (n : ℝ) 0 with hn0 | hn0
    · nlinarith
    · have hn1 : (1 : ℝ) ≤ (n : ℝ) := by
        have : (0 : ℤ) < n := by exact_mod_cast hn0
        exact_mod_cast this
      nlinarith
  have hgeom := geom_sum_eq hz1 15
  have hz15 : Complex.exp ((θ : ℂ) * Complex.I) ^ 15 = 1 := by
    rw [← Complex.exp_nat_mul]
    have harg : ((15 : ℕ) : ℂ) * ((θ : ℂ) * Complex.I) =
        2 * (Real.pi : ℂ) * Complex.I := by
      rw [hθ]
      push_cast
      ring
    rw [harg, Complex.exp_two_pi_mul_I]
  rw [hz15, sub_self, zero_div] at hgeom
  have hre := congrArg Complex.re hgeom
  rw [Complex.re_sum] at hre
  have hterm : ∀ i ∈ Finset.range 15,
      (Complex.exp ((θ : ℂ) * Complex.I) ^ i).re =
        Real.cos (2 * Real.pi * (i : ℝ) / 15) := by
    intro i _
    rw [← Complex.exp_nat_mul]
    have harg : ((i : ℕ) : ℂ) * ((θ : ℂ) * Complex.I) =
        ((2 * Real.pi * (i : ℝ) / 15 : ℝ) : ℂ) * Complex.I := by
      rw [hθ]
      push_cast
      ring
    rw [harg, Complex.exp_ofReal_mul_I_re]
  rw [Finset.sum_congr rfl hterm] at hre
  simpa using hre

/-- Total weight of the symmetric Hann window of length 16: `15/2`, not 8
— the symmetric window (denominator `size - 1`) loses exactly half a
sample of weight. -/
theorem sum_hann_sixteen :
    ∑ i in Finset.range 16,
      (1 / 2 - 1 / 2 * Real.cos (2 * Real.pi * (i : ℝ) /
        (((16 : ℕ) : ℝ) - 1))) = 15 / 2 := by
  rw [Finset.sum_range_succ]
  have h15 : (1 / 2 - 1 / 2 * Real.cos
      (2 * Real.pi * ((15 : ℕ) : ℝ) / (((16 : ℕ) : ℝ) - 1))) = 0 := by
    rw [show (2 * Real.pi * ((15 : ℕ) : ℝ) / (((16 : ℕ) : ℝ) - 1)) =
        2 * Real.pi by push_cast; ring]
    rw [Real.cos_two_pi]
    ring
  rw [h15, add_zero]
  rw [Finset.sum_sub_distrib, Finset.sum_const, Finset.card_range]
  have hcong : ∀ i ∈ Finset.range 15,
      1 / 2 * Real.cos (2 * Real.pi * (i : ℝ) / (((16 : ℕ) : ℝ) - 1)) =
      1 / 2 * Real.cos (2 * Real.pi * (i : ℝ) / 15) := by
    intro i _
    norm_num
  rw [Finset.sum_congr rfl hcong, ← Finset.mul_sum, sum_cos_fifteen]
  norm_num

/-- Total weight of the installed (hop-compensated) window at the spec
scenario configuration `fftSize = 16`, `hopSize = 4`: `15/4`. -/
theorem sum_createWindow_cfg42 :
    ∑ i in Finset.range 16, createWindow cfg42 i = 15 / 4 := by
  have hform : ∀ i ∈ Finset.range 16, createWindow cfg42 i =
      (1 / 2 - 1 / 2 * Real.cos (2 * Real.pi * (i : ℝ) /
        (((16 : ℕ) : ℝ) - 1))) * (1 / 2) := by
    intro i _
    unfold createWindow juceHann
    rw [show cfg42.fftSize = 16 from rfl,
      show compensateDenom cfg42 = 2 from rfl]
    norm_num
  rw [Finset.sum_congr rfl hform, ← Finset.sum_mul, sum_hann_sixteen]
  norm_num

/-- The four COLA phase sums of the spec scenario configuration together
exhaust the sixteen window taps. -/
theorem colaSum_cfg42_total :
    ∑ i0 in Finset.range cfg42.hopSize, colaSum cfg42 i0 =
      ∑ i in Finset.range 16, createWindow cfg42 i := by
  rw [show cfg42.hopSize = 4 from rfl]
  unfold colaSum
  rw [show cfg42.fftSize / cfg42.hopSize = 4 from rfl]
  rw [show cfg42.hopSize = 4 from rfl]
  simp only [Finset.sum_range_succ, Finset.sum_range_zero]
  norm_num
  ring

/-- C3, counterexample.  At the smallest supported configuration
(`fftSize = 2`, `hopSize = 1`) the overlap-add sum of the installed
window at output phase 0 is 0, not 1: JUCE's symmetric Hann window
(denominator `size - 1`) starts and ends at zero, so for `fftSize = 2`
both window taps vanish. -/
theorem c3_cola_counterexample : colaSum wCfg 0 = 0 ∧ (0 : ℝ) ≠ 1 :=
  ⟨colaSum_wCfg 0 (by decide), by norm_num⟩

/-- C3 as the code has it: the hop-size-compensated symmetric Hann window
does not satisfy exact constant overlap-add.  At `fftSize = 2` every COLA
sum is 0; in the spec's own scenario (`fftSize = 16`, `hopSize = 4`) the
four phase sums total `15/4` — a mean of `15/16` per position — where
exact COLA would total 4.  (The deficit is the symmetric Hann window's
`(size-1)`-denominator; a periodic Hann would give exactly 1.) -/
theorem c3_cola_amended :
    (∀ i0 < wCfg.hopSize, colaSum wCfg i0 = 0) ∧
    ∑ i0 in Finset.range cfg42.hopSize, colaSum cfg42 i0 = 15 / 4 ∧
    (15 / 4 : ℝ) ≠ (cfg42.hopSize : ℝ) := by
  refine ⟨colaSum_wCfg, ?_, ?_⟩
  · rw [colaSum_cfg42_total, sum_createWindow_cfg42]
  · rw [show cfg42.hopSize = 4 from rfl]
    norm_num

/-!  The compile-time template variant `FftWithHopSizeAndHannWindowProcessor`
(file `Source/fftWithHopSizeAndHannWindowProcessor.h`): the frame size is
fixed by the template parameter `fftPowerOf2` and the hop is fixed to
`fftSize / 2` (50% overlap).  Its `process` reads the channel count
directly off the caller's blocks, its `writeBackFrame` copies two
`hopSize`-long regions, and its `reset` zeroes the carry-over count
(embedded above as `resetT`). -/

/-- Template parameter of `FftWithHopSizeAndHannWindowProcessor`.  The hop
`fftSize / 2` must be at least one sample for the gather loops to advance,
so the exponent is at least 1 — the same bound the runtime variant's
`jassert`s enforce at `hopDivider = 1`. -/
structure TCfg where
  fftPowerOf2 : ℕ
  pow_pos : 1 ≤ fftPowerOf2

/-- `fftSize = 1 << fftPowerOf2`. -/
def TCfg.fftSize (t : TCfg) : ℕ := 2 ^ t.fftPowerOf2

/-- `hopSize = fftSize / 2`. -/
def TCfg.hopSize (t : TCfg) : ℕ := t.fftSize / 2

/-- The runtime configuration with the same frame size and a 50% hop
(`hopSizeDividerAsPowerOf2 = 1`). -/
def TCfg.toCfg (t : TCfg) : Cfg := ⟨t.fftPowerOf2, 1, le_rfl, t.pow_pos⟩

theorem TCfg.toCfg_fftSize (t : TCfg) : t.toCfg.fftSize = t.fftSize := rfl

theorem TCfg.toCfg_hopSize (t : TCfg) : t.toCfg.hopSize = t.hopSize := by
  show 2 ^ (t.fftPowerOf2 - 1) = 2 ^ t.fftPowerOf2 / 2
  have h := t.pow_pos
  conv_rhs => rw [show t.fftPowerOf2 = (t.fftPowerOf2 - 1) + 1 from by omega]
  rw [pow_succ, Nat.mul_div_cancel _ (by norm_num)]

theorem TCfg.fftSize_two_hop (t : TCfg) : t.fftSize = 2 * t.hopSize := by
  have h := t.pow_pos
  exact (Nat.mul_div_cancel' (dvd_pow_self 2 (by omega))).symm

theorem TCfg.hop_positive (t : TCfg) : 0 < t.hopSize := by
  have h1 := t.toCfg_hopSize
  have h2 := t.toCfg.hopSize_pos
  omega

/-- `writeBackFrame` of the template variant: for each allocated output
channel, overlap-add the first `hopSize` frame samples at `outputOffset`
(`addFrom (ch, outputOffset, …, 0, hopSize)`), overwrite the next
`hopSize` positions from frame position `hopSize`
(`copyFrom (ch, outputOffset + hopSize, …, hopSize, hopSize)` — the
source sample for destination `i` is `i - outputOffset` in both regions),
then advance `outputOffset` by `hopSize`. -/
def writeBackFrameT (t : TCfg) (s : EngineState α) : EngineState α :=
  { s with
    outputBuffer := fun ch =>
      if ch < s.nChOut then fun i =>
        if s.outputOffset ≤ (i : ℤ) ∧
            (i : ℤ) < s.outputOffset + (t.hopSize : ℤ) then
          s.outputBuffer ch i + s.fftInOutBuffer ch (i - s.outputOffset.toNat)
        else if s.outputOffset + (t.hopSize : ℤ) ≤ (i : ℤ) ∧
            (i : ℤ) < s.outputOffset + (t.hopSize : ℤ) + (t.hopSize : ℤ) then
          s.fftInOutBuffer ch (i - s.outputOffset.toNat)
        else s.outputBuffer ch i
      else s.outputBuffer ch,
    outputOffset := s.outputOffset + (t.hopSize : ℤ) }

/-- `processAndBufferOutput` of the template variant: fill the windowed
frame rows for the caller's `nChannels`, run the virtual
`processFrameInBuffer` (which sees those `nChannels` channels), then
`writeBackFrame`. -/
def doFrameT (t : TCfg) (tf : FrameTransform α) (nChannels : ℕ)
    (row : ℕ → ℕ → α) (s : EngineState α) : EngineState α :=
  writeBackFrameT t
    { s with
      fftInOutBuffer := tf nChannels (updBelow nChannels s.fftInOutBuffer row) }

/-- First gather loop of the template `process`. -/
def loopAT (t : TCfg) (w : ℕ → α) (tf : FrameTransform α)
    (nChannels : ℕ) (input : ℕ → ℕ → α) (L : ℕ)
    (s : EngineState α) (nyOff : ℕ) : EngineState α :=
  if h : 0 < s.notYetUsedAudioDataCount ∧
      (t.fftSize : ℤ) ≤ s.notYetUsedAudioDataCount + (L : ℤ) then
    let cnt := s.notYetUsedAudioDataCount.toNat
    let s2 := doFrameT t tf nChannels
      (fun ch => fillFrameRow t.fftSize w (s.notYetUsedAudioData ch)
        (input ch) (s.fftInOutBuffer ch) nyOff cnt) s
    loopAT t w tf nChannels input L
      { s2 with notYetUsedAudioDataCount :=
          s2.notYetUsedAudioDataCount - (t.hopSize : ℤ) }
      (nyOff + t.hopSize)
  else s
termination_by s.notYetUsedAudioDataCount.toNat
decreasing_by
  simp only [doFrameT, writeBackFrameT]
  have := t.hop_positive
  omega

/-- Second gather loop of the template `process`. -/
def loopBT (t : TCfg) (w : ℕ → α) (tf : FrameTransform α)
    (nChannels : ℕ) (input : ℕ → ℕ → α) (L : ℕ)
    (s : EngineState α) (dataOffset : ℤ) : EngineState α × ℤ :=
  if h : (t.fftSize : ℤ) ≤ (L : ℤ) - dataOffset then
    let s2 := doFrameT t tf nChannels
      (fun ch => fillFrameRow t.fftSize w (fun _ => 0)
        (fun i => input ch (dataOffset.toNat + i)) (s.fftInOutBuffer ch) 0 0) s
    loopBT t w tf nChannels input L s2 (dataOffset + (t.hopSize : ℤ))
  else (s, dataOffset)
termination_by ((L : ℤ) - dataOffset).toNat
decreasing_by
  have h1 := t.hop_positive
  have h2 := t.fftSize_two_hop
  omega

/-- Carry phase of the template `process`: the two gather loops followed
by the update of `notYetUsedAudioData`, exactly as in the runtime
variant. -/
def carryPhaseT (t : TCfg) (w : ℕ → α) (tf : FrameTransform α)
    (nChannels : ℕ) (input : ℕ → ℕ → α) (L : ℕ)
    (s : EngineState α) : EngineState α :=
  let initialCount := s.notYetUsedAudioDataCount
  let sA := loopAT t w tf nChannels input L s 0
  if 0 < sA.notYetUsedAudioDataCount then
    let cnt := sA.notYetUsedAudioDataCount.toNat
    { sA with
      notYetUsedAudioData := updBelow nChannels sA.notYetUsedAudioData
        (fun ch i =>
          if i < cnt then
            sA.notYetUsedAudioData ch ((initialCount - (cnt : ℤ)).toNat + i)
          else if i < cnt + L then input ch (i - cnt)
          else sA.notYetUsedAudioData ch i),
      notYetUsedAudioDataCount := sA.notYetUsedAudioDataCount + (L : ℤ) }
  else
    let p := loopBT t w tf nChannels input L sA (- sA.notYetUsedAudioDataCount)
    let sB := p.1
    let dataOffset := p.2
    let remainingSamples : ℤ := (L : ℤ) - dataOffset
    { sB with
      notYetUsedAudioData :=
        if 0 < remainingSamples then
          updBelow nChannels sB.notYetUsedAudioData
            (fun ch i =>
              if i < remainingSamples.toNat then input ch (dataOffset.toNat + i)
              else sB.notYetUsedAudioData ch i)
        else sB.notYetUsedAudioData,
      notYetUsedAudioDataCount := remainingSamples }

/-- Requested left-shift length of the template emission:
`shiftL = outputOffset + hopSize - L`. -/
def shiftLReqT (t : TCfg) (s : EngineState α) (L : ℕ) : ℤ :=
  s.outputOffset + (t.hopSize : ℤ) - (L : ℤ)

/-- `tooMuch = shiftStart + shiftL - outputBuffer.getNumSamples()` of the
template emission. -/
def tooMuchOfT (t : TCfg) (s : EngineState α) (L : ℕ) : ℤ :=
  (L : ℤ) + shiftLReqT t s L - (s.outputBufferLen : ℤ)

/-- Clamped shift length of the template emission. -/
def shiftLClampedT (t : TCfg) (s : EngineState α) (L : ℕ) : ℤ :=
  if 0 < tooMuchOfT t s L then shiftLReqT t s L - tooMuchOfT t s L
  else shiftLReqT t s L

/-- Emission phase of the template `process`: copy the first `L`
output-buffer samples to the caller block for the block's `nChOut`
channels, left-shift the buffer and decrement `outputOffset` by `L`.
The template writes nothing to caller channels at or beyond `nChOut`
(there is no clearing loop); the returned block function reads 0 there. -/
def emitPhaseT (t : TCfg) (nChOut : ℕ) (L : ℕ) (s : EngineState α) :
    EngineState α × (ℕ → ℕ → α) :=
  let shiftL := shiftLClampedT t s L
  let out : ℕ → ℕ → α := fun ch i =>
    if ch < nChOut ∧ i < L then s.outputBuffer ch i else 0
  ({ s with
      outputBuffer := updBelow nChOut s.outputBuffer
        (fun ch i =>
          if (i : ℤ) < shiftL then s.outputBuffer ch (L + i)
          else s.outputBuffer ch i),
      outputOffset := s.outputOffset - (L : ℤ) },
    out)

/-- Member function `process` of the template variant: `nChannels` is the
channel count of the caller's input block, `nChOutBlk` that of the output
block (the template takes both directly off the blocks, with no clamping
against the prepared channel count). -/
def processT (t : TCfg) (w : ℕ → α) (tf : FrameTransform α)
    (s : EngineState α) (input : ℕ → ℕ → α) (L : ℕ)
    (nChannels nChOutBlk : ℕ) : EngineState α × (ℕ → ℕ → α) :=
  emitPhaseT t nChOutBlk L (carryPhaseT t w tf nChannels input L s)

/-- Member function `prepare` of the template variant: one channel count
`nCh` for all buffers, output capacity `M + bufferSize - 1` with
`M = k * hopSize + hopSize`, `outputOffset = fftSize - 1`, and a `reset()`
call zeroing the carry-over count. -/
def prepareT (t : TCfg) (maximumBlockSize nCh : ℕ) : EngineState α :=
  let k : ℕ := 1 + (maximumBlockSize - 1) / t.hopSize
  let M : ℕ := k * t.hopSize + t.hopSize
  { nChIn := nCh
    nChOut := nCh
    maxBlockSize := maximumBlockSize
    fftInOutBuffer := fun _ _ => 0
    notYetUsedAudioData := fun _ _ => 0
    outputBuffer := fun _ _ => 0
    outputBufferLen := M + maximumBlockSize - 1
    outputOffset := (t.fftSize : ℤ) - 1
    notYetUsedAudioDataCount := 0 }

/-- Run a sequence of template `process` calls, all blocks carrying
`nChBlk` channels. -/
def runCallsT (t : TCfg) (w : ℕ → α) (tf : FrameTransform α)
    (nChBlk : ℕ) (s : EngineState α) :
    List (ℕ × (ℕ → ℕ → α)) → EngineState α × List (ℕ × (ℕ → ℕ → α))
  | [] => (s, [])
  | (L, blk) :: rest =>
    let p := processT t w tf s blk L nChBlk nChBlk
    let q := runCallsT t w tf nChBlk p.1 rest
    (q.1, (L, p.2) :: q.2)

/-!  Equivalence of the template variant with the runtime engine at
`hopSizeDividerAsPowerOf2 = 1` (claim C9). -/

theorem writeBackFrameT_eq (t : TCfg) (s : EngineState α) :
    writeBackFrameT t s = writeBackFrame t.toCfg s := by
  have hA : t.toCfg.hopSize = t.hopSize := t.toCfg_hopSize
  have hB : t.toCfg.fftSize = 2 * t.hopSize := by
    rw [t.toCfg_fftSize]
    exact t.fftSize_two_hop
  unfold writeBackFrameT writeBackFrame
  congr 1
  · funext ch
    by_cases hch : ch < s.nChOut
    · rw [if_pos hch, if_pos hch]
      funext i
      split_ifs <;> first | rfl | (exfalso; omega)
    · rw [if_neg hch, if_neg hch]
  · omega

theorem doFrameT_eq (t : TCfg) (tf : FrameTransform α) (n : ℕ)
    (row : ℕ → ℕ → α) (s : EngineState α) :
    doFrameT t tf n row s = doFrame t.toCfg tf n n row s := by
  unfold doFrameT doFrame
  rw [writeBackFrameT_eq]

theorem shiftLReqT_eq (t : TCfg) (s : EngineState α) (L : ℕ) :
    shiftLReqT t s L = shiftLReq t.toCfg s L := by
  have hA : t.toCfg.hopSize = t.hopSize := t.toCfg_hopSize
  have hB : t.toCfg.fftSize = 2 * t.hopSize := by
    rw [t.toCfg_fftSize]
    exact t.fftSize_two_hop
  unfold shiftLReqT shiftLReq
  omega

theorem tooMuchOfT_eq (t : TCfg) (s : EngineState α) (L : ℕ) :
    tooMuchOfT t s L = tooMuchOf t.toCfg s L := by
  unfold tooMuchOfT tooMuchOf
  rw [shiftLReqT_eq]

theorem shiftLClampedT_eq (t : TCfg) (s : EngineState α) (L : ℕ) :
    shiftLClampedT t s L = shiftLClamped t.toCfg s L := by
  unfold shiftLClampedT shiftLClamped
  rw [shiftLReqT_eq, tooMuchOfT_eq]

theorem emitPhaseT_eq (t : TCfg) (nOut L : ℕ) (s : EngineState α) :
    emitPhaseT t nOut L s = emitPhase t.toCfg nOut L s := by
  unfold emitPhaseT emitPhase
  rw [shiftLClampedT_eq]

theorem loopAT_eq (t : TCfg) (w : ℕ → α) (tf : FrameTransform α)
    (n L : ℕ) (input : ℕ → ℕ → α) :
    ∀ (fuel : ℕ) (s : EngineState α) (nyOff : ℕ),
    s.notYetUsedAudioDataCount.toNat ≤ fuel →
    loopAT t w tf n input L s nyOff =
      loopA t.toCfg w tf n n input L s nyOff := by
  have hA : t.toCfg.hopSize = t.hopSize := t.toCfg_hopSize
  have hB : t.toCfg.fftSize = 2 * t.hopSize := by
    rw [t.toCfg_fftSize]
    exact t.fftSize_two_hop
  have hN : t.toCfg.fftSize = t.fftSize := t.toCfg_fftSize
  intro fuel
  induction fuel with
  | zero =>
    intro s nyOff hfuel
    have hngT : ¬(0 < s.notYetUsedAudioDataCount ∧
        (t.fftSize : ℤ) ≤ s.notYetUsedAudioDataCount + (L : ℤ)) := by omega
    have hngR : ¬(0 < s.notYetUsedAudioDataCount ∧
        (t.toCfg.fftSize : ℤ) ≤ s.notYetUsedAudioDataCount + (L : ℤ)) := by
      omega
    conv_lhs => rw [loopAT]
    conv_rhs => rw [loopA]
    simp only [dif_neg hngT, dif_neg hngR]
  | succ nf ih =>
    intro s nyOff hfuel
    by_cases hg : 0 < s.notYetUsedAudioDataCount ∧
        (t.fftSize : ℤ) ≤ s.notYetUsedAudioDataCount + (L : ℤ)
    · have hgR : 0 < s.notYetUsedAudioDataCount ∧
          (t.toCfg.fftSize : ℤ) ≤ s.notYetUsedAudioDataCount + (L : ℤ) := by
        omega
      conv_lhs => rw [loopAT]
      conv_rhs => rw [loopA]
      simp only [dif_pos hg, dif_pos hgR]
      rw [hN, hA, doFrameT_eq]
      refine ih _ _ ?_
      dsimp only
      rw [doFrame_count]
      have hR1 := t.hop_positive
      omega
    · have hgR : ¬(0 < s.notYetUsedAudioDataCount ∧
          (t.toCfg.fftSize : ℤ) ≤ s.notYetUsedAudioDataCount + (L : ℤ)) := by
        omega
      conv_lhs => rw [loopAT]
      conv_rhs => rw [loopA]
      simp only [dif_neg hg, dif_neg hgR]

theorem loopBT_eq (t : TCfg) (w : ℕ → α) (tf : FrameTransform α)
    (n L : ℕ) (input : ℕ → ℕ → α) :
    ∀ (fuel : ℕ) (s : EngineState α) (dataOffset : ℤ),
    ((L : ℤ) - dataOffset).toNat ≤ fuel →
    loopBT t w tf n input L s dataOffset =
      loopB t.toCfg w tf n n input L s dataOffset := by
  have hA : t.toCfg.hopSize = t.hopSize := t.toCfg_hopSize
  have hB : t.toCfg.fftSize = 2 * t.hopSize := by
    rw [t.toCfg_fftSize]
    exact t.fftSize_two_hop
  have hN : t.toCfg.fftSize = t.fftSize := t.toCfg_fftSize
  intro fuel
  induction fuel with
  | zero =>
    intro s dataOffset hfuel
    have hP := t.hop_positive
    have hngT : ¬((t.fftSize : ℤ) ≤ (L : ℤ) - dataOffset) := by omega
    have hngR : ¬((t.toCfg.fftSize : ℤ) ≤ (L : ℤ) - dataOffset) := by omega
    conv_lhs => rw [loopBT]
    conv_rhs => rw [loopB]
    simp only [dif_neg hngT, dif_neg hngR]
  | succ nf ih =>
    intro s dataOffset hfuel
    by_cases hg : (t.fftSize : ℤ) ≤ (L : ℤ) - dataOffset
    · have hgR : (t.toCfg.fftSize : ℤ) ≤ (L : ℤ) - dataOffset := by omega
      conv_lhs => rw [loopBT]
      conv_rhs => rw [loopB]
      simp only [dif_pos hg, dif_pos hgR]
      rw [hN, hA, doFrameT_eq]
      refine ih _ _ ?_
      have hR1 := t.hop_positive
      omega
    · have hgR : ¬((t.toCfg.fftSize : ℤ) ≤ (L : ℤ) - dataOffset) := by omega
      conv_lhs => rw [loopBT]
      conv_rhs => rw [loopB]
      simp only [dif_neg hg, dif_neg hgR]

theorem carryPhaseT_eq (t : TCfg) (w : ℕ → α) (tf : FrameTransform α)
    (n L : ℕ) (input : ℕ → ℕ → α) (s : EngineState α) :
    carryPhaseT t w tf n input L s =
      carryPhase t.toCfg w tf n n input L s := by
  unfold carryPhaseT carryPhase
  dsimp only
  rw [loopAT_eq t w tf n L input s.notYetUsedAudioDataCount.toNat s 0 le_rfl]
  set sA := loopA t.toCfg w tf n n input L s 0 with hsA
  by_cases hpos : 0 < sA.notYetUsedAudioDataCount
  · rw [if_pos hpos, if_pos hpos]
  · rw [if_neg hpos, if_neg hpos]
    rw [loopBT_eq t w tf n L input
      ((L : ℤ) - (- sA.notYetUsedAudioDataCount)).toNat sA
      (- sA.notYetUsedAudioDataCount) le_rfl]

theorem processT_eq (t : TCfg) (w : ℕ → α) (tf : FrameTransform α)
    (s : EngineState α) (input : ℕ → ℕ → α) (L nCh : ℕ)
    (hin : s.nChIn = nCh) (hout : s.nChOut = nCh) :
    processT t w tf s input L nCh nCh =
      process t.toCfg w tf s input L nCh nCh := by
  unfold processT process
  dsimp only
  rw [hin, hout, min_self, max_self]
  rw [carryPhaseT_eq, emitPhaseT_eq]

/-- One unfolding of `loopA` when the guard holds. -/
theorem loopA_step (c : Cfg) (w : ℕ → α) (tf : FrameTransform α)
    (nIn maxCh : ℕ) (input : ℕ → ℕ → α) (L : ℕ)
    (s : EngineState α) (nyOff : ℕ)
    (hg : 0 < s.notYetUsedAudioDataCount ∧
      (c.fftSize : ℤ) ≤ s.notYetUsedAudioDataCount + (L : ℤ)) :
    loopA c w tf nIn maxCh input L s nyOff =
      loopA c w tf nIn maxCh input L
        { doFrame c tf nIn maxCh
            (fun ch => fillFrameRow c.fftSize w (s.notYetUsedAudioData ch)
              (input ch) (s.fftInOutBuffer ch) nyOff
              s.notYetUsedAudioDataCount.toNat) s with
          notYetUsedAudioDataCount :=
            (doFrame c tf nIn maxCh
              (fun ch => fillFrameRow c.fftSize w (s.notYetUsedAudioData ch)
                (input ch) (s.fftInOutBuffer ch) nyOff
                s.notYetUsedAudioDataCount.toNat)
              s).notYetUsedAudioDataCount - (c.hopSize : ℤ) }
        (nyOff + c.hopSize) := by
  conv_lhs => rw [loopA]
  simp only [dif_pos hg]

/-- One unfolding of `loopB` when the guard holds. -/
theorem loopB_step (c : Cfg) (w : ℕ → α) (tf : FrameTransform α)
    (nIn maxCh : ℕ) (input : ℕ → ℕ → α) (L : ℕ)
    (s : EngineState α) (dataOffset : ℤ)
    (hg : (c.fftSize : ℤ) ≤ (L : ℤ) - dataOffset) :
    loopB c w tf nIn maxCh input L s dataOffset =
      loopB c w tf nIn maxCh input L
        (doFrame c tf nIn maxCh
          (fun ch => fillFrameRow c.fftSize w (fun _ => 0)
            (fun i => input ch (dataOffset.toNat + i))
            (s.fftInOutBuffer ch) 0 0) s)
        (dataOffset + (c.hopSize : ℤ)) := by
  conv_lhs => rw [loopB]
  simp only [dif_pos hg]

/-- `loopA` never changes the stored channel counts. -/
theorem loopA_nCh (c : Cfg) (w : ℕ → α) (tf : FrameTransform α)
    (nIn maxCh : ℕ) (input : ℕ → ℕ → α) (L : ℕ) :
    ∀ (fuel : ℕ) (s : EngineState α) (nyOff : ℕ),
    s.notYetUsedAudioDataCount.toNat ≤ fuel →
    (loopA c w tf nIn maxCh input L s nyOff).nChIn = s.nChIn ∧
    (loopA c w tf nIn maxCh input L s nyOff).nChOut = s.nChOut := by
  intro fuel
  induction fuel with
  | zero =>
    intro s nyOff hfuel
    have hng : ¬(0 < s.notYetUsedAudioDataCount ∧
        (c.fftSize : ℤ) ≤ s.notYetUsedAudioDataCount + (L : ℤ)) := by omega
    have hstep : loopA c w tf nIn maxCh input L s nyOff = s := by
      conv_lhs => rw [loopA]
      simp only [dif_neg hng]
    rw [hstep]
    exact ⟨rfl, rfl⟩
  | succ nf ih =>
    intro s nyOff hfuel
    by_cases hg : 0 < s.notYetUsedAudioDataCount ∧
        (c.fftSize : ℤ) ≤ s.notYetUsedAudioDataCount + (L : ℤ)
    · rw [loopA_step c w tf nIn maxCh input L s nyOff hg]
      have hR1 := c.hopSize_pos
      refine ⟨((ih _ _ ?_).1).trans rfl, ((ih _ _ ?_).2).trans rfl⟩ <;>
      · dsimp only
        rw [doFrame_count]
        omega
    · have hstep : loopA c w tf nIn maxCh input L s nyOff = s := by
        conv_lhs => rw [loopA]
        simp only [dif_neg hg]
      rw [hstep]
      exact ⟨rfl, rfl⟩

/-- `loopB` never changes the stored channel counts. -/
theorem loopB_nCh (c : Cfg) (w : ℕ → α) (tf : FrameTransform α)
    (nIn maxCh : ℕ) (input : ℕ → ℕ → α) (L : ℕ) :
    ∀ (fuel : ℕ) (s : EngineState α) (dataOffset : ℤ),
    ((L : ℤ) - dataOffset).toNat ≤ fuel →
    (loopB c w tf nIn maxCh input L s dataOffset).1.nChIn = s.nChIn ∧
    (loopB c w tf nIn maxCh input L s dataOffset).1.nChOut = s.nChOut := by
  intro fuel
  induction fuel with
  | zero =>
    intro s dataOffset hfuel
    have hN1 := c.fftSize_pos
    have hng : ¬((c.fftSize : ℤ) ≤ (L : ℤ) - dataOffset) := by omega
    have hstep : loopB c w tf nIn maxCh input L s dataOffset =
        (s, dataOffset) := by
      conv_lhs => rw [loopB]
      simp only [dif_neg hng]
    rw [hstep]
    exact ⟨rfl, rfl⟩
  | succ nf ih =>
    intro s dataOffset hfuel
    by_cases hg : (c.fftSize : ℤ) ≤ (L : ℤ) - dataOffset
    · rw [loopB_step c w tf nIn maxCh input L s dataOffset hg]
      have hR1 := c.hopSize_pos
      have hRN := c.hopSize_le_fftSize
      refine ⟨((ih _ _ ?_).1).trans rfl, ((ih _ _ ?_).2).trans rfl⟩ <;> omega
    · have hstep : loopB c w tf nIn maxCh input L s dataOffset =
          (s, dataOffset) := by
        conv_lhs => rw [loopB]
        simp only [dif_neg hg]
      rw [hstep]
      exact ⟨rfl, rfl⟩

/-- `carryPhase` never changes the stored channel counts. -/
theorem carryPhase_nCh (c : Cfg) (w : ℕ → α) (tf : FrameTransform α)
    (nIn maxCh : ℕ) (input : ℕ → ℕ → α) (L : ℕ) (s : EngineState α) :
    (carryPhase c w tf nIn maxCh input L s).nChIn = s.nChIn ∧
    (carryPhase c w tf nIn maxCh input L s).nChOut = s.nChOut := by
  obtain ⟨hA1, hA2⟩ := loopA_nCh c w tf nIn maxCh input L
    s.notYetUsedAudioDataCount.toNat s 0 le_rfl
  unfold carryPhase
  dsimp only
  set sA := loopA c w tf nIn maxCh input L s 0 with hsA
  by_cases hpos : 0 < sA.notYetUsedAudioDataCount
  · rw [if_pos hpos]
    exact ⟨hA1, hA2⟩
  · rw [if_neg hpos]
    obtain ⟨hB1, hB2⟩ := loopB_nCh c w tf nIn maxCh input L
      ((L : ℤ) - (- sA.notYetUsedAudioDataCount)).toNat sA
      (- sA.notYetUsedAudioDataCount) le_rfl
    exact ⟨hB1.trans hA1, hB2.trans hA2⟩

/-- `process` never changes the stored channel counts. -/
theorem process_nCh (c : Cfg) (w : ℕ → α) (tf : FrameTransform α)
    (s : EngineState α) (input : ℕ → ℕ → α) (L inBlkCh outBlkCh : ℕ) :
    (process c w tf s input L inBlkCh outBlkCh).1.nChIn = s.nChIn ∧
    (process c w tf s input L inBlkCh outBlkCh).1.nChOut = s.nChOut := by
  obtain ⟨h1, h2⟩ := carryPhase_nCh c w tf (min inBlkCh s.nChIn)
    (max (min inBlkCh s.nChIn) (min outBlkCh s.nChOut)) input L s
  exact ⟨h1, h2⟩

theorem runCallsT_eq (t : TCfg) (w : ℕ → α) (tf : FrameTransform α)
    (nCh : ℕ) :
    ∀ (calls : List (ℕ × (ℕ → ℕ → α))) (s : EngineState α),
    s.nChIn = nCh → s.nChOut = nCh →
    runCallsT t w tf nCh s calls =
      runCalls t.toCfg w tf nCh nCh s calls := by
  intro calls
  induction calls with
  | nil => intro s _ _; rfl
  | cons hd rest ih =>
    intro s hin hout
    obtain ⟨L, blk⟩ := hd
    simp only [runCallsT, runCalls]
    rw [processT_eq t w tf s blk L nCh hin hout]
    obtain ⟨hp1, hp2⟩ := process_nCh t.toCfg w tf s blk L nCh nCh
    rw [ih (process t.toCfg w tf s blk L nCh nCh).1
      (hp1.trans hin) (hp2.trans hout)]

theorem prepareT_eq (t : TCfg) (maximumBlockSize nCh : ℕ) :
    (prepareT t maximumBlockSize nCh : EngineState α) =
      prepare t.toCfg maximumBlockSize nCh nCh := by
  have hA : t.toCfg.hopSize = t.hopSize := t.toCfg_hopSize
  have hB : t.toCfg.fftSize = 2 * t.hopSize := by
    rw [t.toCfg_fftSize]
    exact t.fftSize_two_hop
  unfold prepareT prepare
  dsimp only
  rw [hA]
  rw [show t.toCfg.fftSize - t.hopSize = t.hopSize from by omega]
  rw [t.toCfg_fftSize]

/-- C9.  Refinement: the runtime-parameterized engine
(`OverlappingFFTProcessor`) at `hopSizeDividerAsPowerOf2 = 1` and the
compile-time template engine (`FftWithHopSizeAndHannWindowProcessor`)
with the same frame size agree completely — same `prepare` state and,
for every sequence of `process` calls whose blocks carry the prepared
channel count, identical final state and identical emitted output
blocks. -/
theorem c9_template_equivalence (t : TCfg) (w : ℕ → α)
    (tf : FrameTransform α) (maximumBlockSize nCh : ℕ)
    (calls : List (ℕ × (ℕ → ℕ → α))) :
    runCallsT t w tf nCh (prepareT t maximumBlockSize nCh) calls =
      runCalls t.toCfg w tf nCh nCh
        (prepare t.toCfg maximumBlockSize nCh nCh) calls := by
  rw [runCallsT_eq t w tf nCh calls
    (prepareT t maximumBlockSize nCh) rfl rfl]
  rw [prepareT_eq]

end OverlapFFT
